import Mathlib

/-!
Verification of the graph core of the lpp standard library
(src/stdlib/lpp_stdlib.hpp): the Molecule class (atoms, bonds, adjacency,
traversals, structural analysis) and the four standalone mapping-based
graph analyzer functions.

Modelling conventions: the C++ unordered containers are modelled as lists
(unordered_set / unordered_map iteration order is unspecified in C++; the
model fixes it to insertion order).  Unbounded loops and recursion are
modelled with explicit fuel; fuel bounds are proved sufficient where a
theorem depends on the loop running to completion.
-/

set_option maxHeartbeats 1000000

namespace LppStdlib

/-- Edge kinds of the graph core, from enum class BondType. -/
inductive BondType
  | SINGLE
  | DOUBLE
  | ARROW
  | BIDIRECTIONAL
deriving DecidableEq

/-- An edge of the graph: the ordered triple (from, to, kind), from struct
MoleculeBond.  The fields fro and toN render the C++ field names from and
to, which are reserved words in Lean. -/
structure MoleculeBond (T : Type) where
  fro : T
  toN : T
  type : BondType
deriving DecidableEq

/-- The graph entity, from class Molecule: adjacency mapping, edge list and
node set. -/
structure Molecule (T : Type) where
  adjacency : List (T × List T)
  bonds : List (MoleculeBond T)
  atoms : List T
deriving DecidableEq

variable {T : Type} [DecidableEq T]

/-- Association-list lookup; models unordered_map::find. -/
def alook {B : Type} : List (T × B) → T → Option B
  | [], _ => none
  | (k, v) :: rest, x => if k = x then some v else alook rest x

/-- Models adjacency[k].push_back(x): appends x to the list stored at key k,
creating the entry first (as operator[] does) when the key is absent. -/
def adjPush : List (T × List T) → T → T → List (T × List T)
  | [], k, x => [(k, [x])]
  | (a, l) :: rest, k, x =>
    if a = k then (a, l ++ [x]) :: rest else (a, l) :: adjPush rest k x

/-- The default-constructed Molecule: all three structures empty. -/
def emptyGraph : Molecule T := ⟨[], [], []⟩

namespace Molecule

/-- Molecule::hasAtom. -/
def hasAtom (g : Molecule T) (atom : T) : Bool := decide (atom ∈ g.atoms)

/-- Molecule::addAtom: inserts the atom if absent, ensuring an adjacency
entry exists for it; silently ignores an atom already present. -/
def addAtom (g : Molecule T) (atom : T) : Molecule T :=
  if atom ∈ g.atoms then g
  else
    { g with
      atoms := g.atoms ++ [atom]
      adjacency :=
        match alook g.adjacency atom with
        | some _ => g.adjacency
        | none => g.adjacency ++ [(atom, [])] }

/-- The duplicate-bond scan of Molecule::addBond / Molecule::hasBond:
some existing bond matches (from, to, type) exactly. -/
def bondMem (bonds : List (MoleculeBond T)) (a b : T) (t : BondType) : Bool :=
  bonds.any fun bd => decide (bd.fro = a ∧ bd.toN = b ∧ bd.type = t)

/-- The body of Molecule::addBond after the two addAtom calls: ignores an
exact (from, to, type) duplicate, otherwise appends the bond, appends the
target node to adjacency[from], and, for every kind except ARROW (SINGLE,
DOUBLE and BIDIRECTIONAL alike), appends the source node to adjacency[to]. -/
def addBondCore (g1 : Molecule T) (a b : T) (t : BondType) : Molecule T :=
  if bondMem g1.bonds a b t then g1
  else if t = BondType.ARROW then
    { g1 with
      bonds := g1.bonds ++ [MoleculeBond.mk a b t]
      adjacency := adjPush g1.adjacency a b }
  else
    { g1 with
      bonds := g1.bonds ++ [MoleculeBond.mk a b t]
      adjacency := adjPush (adjPush g1.adjacency a b) b a }

/-- Molecule::addBond: auto-inserts both endpoints, then updates the bond
list and adjacency as in addBondCore. -/
def addBond (g : Molecule T) (a b : T) (t : BondType) : Molecule T :=
  addBondCore ((g.addAtom a).addAtom b) a b t

/-- Molecule::neighbors: a copy of adjacency[atom], or the empty sequence
when the atom has no adjacency entry. -/
def neighbors (g : Molecule T) (atom : T) : List T :=
  (alook g.adjacency atom).getD []

/-- Molecule::hasBond: exact (from, to, type) match over the bond list. -/
def hasBond (g : Molecule T) (a b : T) (t : BondType) : Bool :=
  bondMem g.bonds a b t

/-- Molecule::atomCount. -/
def atomCount (g : Molecule T) : Nat := g.atoms.length

/-- Molecule::bondCount. -/
def bondCount (g : Molecule T) : Nat := g.bonds.length

/-- Molecule::clear: resets all three structures. -/
def clear (_g : Molecule T) : Molecule T := ⟨[], [], []⟩

/-- Molecule::empty: true iff both the atom set and the bond list are empty. -/
def isEmptyM (g : Molecule T) : Bool := decide (g.atoms = [] ∧ g.bonds = [])

end Molecule

/-! Basic lemmas about alook and adjPush. -/

theorem alook_eq_none_iff {B : Type} (l : List (T × B)) (x : T) :
    alook l x = none ↔ x ∉ l.map Prod.fst := by
  induction l with
  | nil => simp [alook]
  | cons p rest ih =>
    obtain ⟨k, v⟩ := p
    simp only [alook, List.map_cons, List.mem_cons]
    by_cases h : k = x
    · subst h; simp
    · simp [h, ih, show x ≠ k from fun hh => h hh.symm]

theorem alook_isSome_iff {B : Type} (l : List (T × B)) (x : T) :
    (alook l x).isSome ↔ x ∈ l.map Prod.fst := by
  rw [Option.isSome_iff_ne_none, Ne, alook_eq_none_iff, not_not]

theorem alook_append_some {B : Type} {l1 : List (T × B)} (l2 : List (T × B))
    {x : T} {v : B} (h : alook l1 x = some v) : alook (l1 ++ l2) x = some v := by
  induction l1 with
  | nil => simp [alook] at h
  | cons p rest ih =>
    obtain ⟨k, w⟩ := p
    by_cases hk : k = x <;> simp_all [alook]

theorem alook_append_none {B : Type} {l1 : List (T × B)} (l2 : List (T × B))
    {x : T} (h : alook l1 x = none) : alook (l1 ++ l2) x = alook l2 x := by
  induction l1 with
  | nil => simp [alook]
  | cons p rest ih =>
    obtain ⟨k, w⟩ := p
    by_cases hk : k = x <;> simp_all [alook]

theorem alook_append_single_ne {B : Type} (l : List (T × B)) {x a : T} (v : B)
    (hx : x ≠ a) : alook (l ++ [(a, v)]) x = alook l x := by
  rcases hs : alook l x with _ | w
  · rw [alook_append_none _ hs]
    simp [alook, Ne.symm hx]
  · rw [alook_append_some _ hs]

theorem alook_adjPush_self (adj : List (T × List T)) (k x : T) :
    alook (adjPush adj k x) k = some ((alook adj k).getD [] ++ [x]) := by
  induction adj with
  | nil => simp [adjPush, alook]
  | cons p rest ih =>
    obtain ⟨a, l⟩ := p
    by_cases h : a = k <;> simp [adjPush, alook, h, ih]

theorem alook_adjPush_ne (adj : List (T × List T)) {k y : T} (x : T)
    (h : y ≠ k) : alook (adjPush adj k x) y = alook adj y := by
  induction adj with
  | nil => simp [adjPush, alook, Ne.symm h]
  | cons p rest ih =>
    obtain ⟨a, l⟩ := p
    by_cases ha : a = k
    · subst ha
      simp [adjPush, alook, Ne.symm h]
    · by_cases hy : a = y
      · subst hy
        simp [adjPush, alook, ha]
      · simp [adjPush, alook, ha, hy, ih]

theorem adjPush_keys_of_some (adj : List (T × List T)) {k : T} (x : T)
    (h : (alook adj k).isSome) :
    (adjPush adj k x).map Prod.fst = adj.map Prod.fst := by
  induction adj with
  | nil => simp [alook] at h
  | cons p rest ih =>
    obtain ⟨a, l⟩ := p
    by_cases ha : a = k <;> simp_all [adjPush, alook]

theorem adjPush_keys_of_none (adj : List (T × List T)) {k : T} (x : T)
    (h : alook adj k = none) :
    (adjPush adj k x).map Prod.fst = adj.map Prod.fst ++ [k] := by
  induction adj with
  | nil => simp [adjPush]
  | cons p rest ih =>
    obtain ⟨a, l⟩ := p
    by_cases ha : a = k <;> simp_all [adjPush, alook]

/-! Shape lemmas for addAtom. -/

theorem addAtom_of_mem {g : Molecule T} {a : T} (h : a ∈ g.atoms) :
    g.addAtom a = g := by
  simp [Molecule.addAtom, h]

theorem addAtom_bonds (g : Molecule T) (a : T) :
    (g.addAtom a).bonds = g.bonds := by
  unfold Molecule.addAtom
  split
  · rfl
  · split <;> rfl

theorem addAtom_atoms_of_not_mem {g : Molecule T} {a : T} (h : a ∉ g.atoms) :
    (g.addAtom a).atoms = g.atoms ++ [a] := by
  unfold Molecule.addAtom
  rw [if_neg h]

theorem addAtom_adj_of_some {g : Molecule T} {a : T} (h : a ∉ g.atoms)
    (hs : (alook g.adjacency a).isSome) :
    (g.addAtom a).adjacency = g.adjacency := by
  unfold Molecule.addAtom
  rw [if_neg h]
  obtain ⟨v, hv⟩ := Option.isSome_iff_exists.mp hs
  simp [hv]

theorem addAtom_adj_of_none {g : Molecule T} {a : T} (h : a ∉ g.atoms)
    (hn : alook g.adjacency a = none) :
    (g.addAtom a).adjacency = g.adjacency ++ [(a, [])] := by
  unfold Molecule.addAtom
  rw [if_neg h]
  simp [hn]

theorem addAtom_atoms_mem (g : Molecule T) (a x : T) :
    x ∈ (g.addAtom a).atoms ↔ x ∈ g.atoms ∨ x = a := by
  by_cases h : a ∈ g.atoms
  · rw [addAtom_of_mem h]
    constructor
    · exact Or.inl
    · rintro (hx | rfl)
      · exact hx
      · exact h
  · rw [addAtom_atoms_of_not_mem h]
    simp

theorem addAtom_mem_self (g : Molecule T) (a : T) : a ∈ (g.addAtom a).atoms := by
  rw [addAtom_atoms_mem]; exact Or.inr rfl

theorem addAtom_atoms_sub (g : Molecule T) (a : T) :
    g.atoms ⊆ (g.addAtom a).atoms := fun x hx => by
  rw [addAtom_atoms_mem]; exact Or.inl hx

/-- addAtom never changes the neighbors function: a fresh atom gets an empty
adjacency list, which is also what neighbors returns for an absent key. -/
theorem neighbors_addAtom (g : Molecule T) (a x : T) :
    (g.addAtom a).neighbors x = g.neighbors x := by
  unfold Molecule.neighbors
  by_cases h : a ∈ g.atoms
  · rw [addAtom_of_mem h]
  · rcases hlk : alook g.adjacency a with _ | v
    · rw [addAtom_adj_of_none h hlk]
      by_cases hx : x = a
      · subst hx
        rw [alook_append_none _ hlk, hlk]
        simp [alook]
      · rw [alook_append_single_ne _ _ hx]
    · rw [addAtom_adj_of_some h (by simp [hlk])]

/-! Well-formedness of a Molecule state: the invariants maintained by the
mutation operations. -/

/-- The state invariant of the Molecule class: no duplicate atoms or
adjacency keys, bond endpoints are atoms, adjacency keys are exactly the
atoms, and every stored bond has its adjacency entries (including the
reverse entry for every kind except ARROW). -/
structure Wf (g : Molecule T) : Prop where
  atomsNodup : g.atoms.Nodup
  adjKeysNodup : (g.adjacency.map Prod.fst).Nodup
  bondFro : ∀ bd ∈ g.bonds, bd.fro ∈ g.atoms
  bondTo : ∀ bd ∈ g.bonds, bd.toN ∈ g.atoms
  atomAdj : ∀ a ∈ g.atoms, (alook g.adjacency a).isSome
  adjAtom : ∀ a, (alook g.adjacency a).isSome → a ∈ g.atoms
  bondFwd : ∀ bd ∈ g.bonds, bd.toN ∈ g.neighbors bd.fro
  bondRev : ∀ bd ∈ g.bonds, bd.type ≠ BondType.ARROW → bd.fro ∈ g.neighbors bd.toN

theorem wf_emptyGraph : Wf (emptyGraph (T := T)) := by
  constructor <;> simp [emptyGraph, alook, Molecule.neighbors]

theorem wf_addAtom {g : Molecule T} (hg : Wf g) (a : T) : Wf (g.addAtom a) := by
  by_cases h : a ∈ g.atoms
  · rwa [addAtom_of_mem h]
  · have hat := addAtom_atoms_of_not_mem h
    have hbd := addAtom_bonds g a
    have hnb := neighbors_addAtom g a
    rcases hlk : alook g.adjacency a with _ | v
    · have hadj := addAtom_adj_of_none h hlk
      refine ⟨?_, ?_, ?_, ?_, ?_, ?_, ?_, ?_⟩
      · rw [hat, List.nodup_append]
        refine ⟨hg.atomsNodup, List.nodup_singleton a, ?_⟩
        intro x hx hx2
        rw [List.mem_singleton] at hx2
        subst hx2
        exact h hx
      · rw [hadj, List.map_append, List.nodup_append]
        refine ⟨hg.adjKeysNodup, by simp, ?_⟩
        intro x hx hx2
        simp only [List.map_cons, List.map_nil, List.mem_singleton] at hx2
        subst hx2
        exact (alook_eq_none_iff _ _).mp hlk hx
      · intro bd hb
        rw [hbd] at hb
        rw [hat]
        exact List.mem_append_left _ (hg.bondFro bd hb)
      · intro bd hb
        rw [hbd] at hb
        rw [hat]
        exact List.mem_append_left _ (hg.bondTo bd hb)
      · intro x hx
        rw [hat] at hx
        rw [hadj]
        rcases List.mem_append.mp hx with hx | hx
        · obtain ⟨w, hw⟩ := Option.isSome_iff_exists.mp (hg.atomAdj x hx)
          rw [alook_append_some _ hw]; rfl
        · rw [List.mem_singleton] at hx
          subst hx
          rw [alook_append_none _ hlk]
          simp [alook]
      · intro x hx
        rw [hadj] at hx
        rw [hat]
        by_cases hxa : x = a
        · subst hxa; simp
        · rw [alook_append_single_ne _ _ hxa] at hx
          exact List.mem_append_left _ (hg.adjAtom x hx)
      · intro bd hb
        rw [hbd] at hb
        rw [hnb]
        exact hg.bondFwd bd hb
      · intro bd hb ht
        rw [hbd] at hb
        rw [hnb]
        exact hg.bondRev bd hb ht
    · have hadj := addAtom_adj_of_some h (by simp [hlk])
      refine ⟨?_, ?_, ?_, ?_, ?_, ?_, ?_, ?_⟩
      · rw [hat, List.nodup_append]
        refine ⟨hg.atomsNodup, List.nodup_singleton a, ?_⟩
        intro x hx hx2
        rw [List.mem_singleton] at hx2
        subst hx2
        exact h hx
      · rw [hadj]; exact hg.adjKeysNodup
      · intro bd hb
        rw [hbd] at hb
        rw [hat]
        exact List.mem_append_left _ (hg.bondFro bd hb)
      · intro bd hb
        rw [hbd] at hb
        rw [hat]
        exact List.mem_append_left _ (hg.bondTo bd hb)
      · intro x hx
        rw [hat] at hx
        rw [hadj]
        rcases List.mem_append.mp hx with hx | hx
        · exact hg.atomAdj x hx
        · rw [List.mem_singleton] at hx
          subst hx
          simp [hlk]
      · intro x hx
        rw [hadj] at hx
        rw [hat]
        exact List.mem_append_left _ (hg.adjAtom x hx)
      · intro bd hb
        rw [hbd] at hb
        rw [hnb]
        exact hg.bondFwd bd hb
      · intro bd hb ht
        rw [hbd] at hb
        rw [hnb]
        exact hg.bondRev bd hb ht

/-! Shape lemmas for addBond. -/

theorem bondMem_iff (bonds : List (MoleculeBond T)) (a b : T) (t : BondType) :
    Molecule.bondMem bonds a b t = true ↔ MoleculeBond.mk a b t ∈ bonds := by
  unfold Molecule.bondMem
  rw [List.any_eq_true]
  constructor
  · rintro ⟨bd, hbd, hdec⟩
    rw [decide_eq_true_iff] at hdec
    obtain ⟨h1, h2, h3⟩ := hdec
    cases bd
    cases h1; cases h2; cases h3
    exact hbd
  · intro h
    exact ⟨_, h, by simp⟩

theorem bondMem_append (l1 l2 : List (MoleculeBond T)) (a b : T) (t : BondType) :
    Molecule.bondMem (l1 ++ l2) a b t =
      (Molecule.bondMem l1 a b t || Molecule.bondMem l2 a b t) := by
  unfold Molecule.bondMem
  exact List.any_append

theorem addBond_of_dup {g : Molecule T} {a b : T} {t : BondType}
    (hd : Molecule.bondMem g.bonds a b t = true) :
    g.addBond a b t = (g.addAtom a).addAtom b := by
  unfold Molecule.addBond Molecule.addBondCore
  rw [addAtom_bonds, addAtom_bonds, if_pos hd]

theorem addBond_eq_arrow {g : Molecule T} {a b : T}
    (hd : Molecule.bondMem g.bonds a b BondType.ARROW = false) :
    g.addBond a b BondType.ARROW =
      { (g.addAtom a).addAtom b with
        bonds := g.bonds ++ [MoleculeBond.mk a b BondType.ARROW]
        adjacency := adjPush ((g.addAtom a).addAtom b).adjacency a b } := by
  unfold Molecule.addBond Molecule.addBondCore
  rw [addAtom_bonds, addAtom_bonds, hd]
  simp

theorem addBond_eq_rev {g : Molecule T} {a b : T} {t : BondType}
    (hd : Molecule.bondMem g.bonds a b t = false) (ht : t ≠ BondType.ARROW) :
    g.addBond a b t =
      { (g.addAtom a).addAtom b with
        bonds := g.bonds ++ [MoleculeBond.mk a b t]
        adjacency :=
          adjPush (adjPush ((g.addAtom a).addAtom b).adjacency a b) b a } := by
  unfold Molecule.addBond Molecule.addBondCore
  rw [addAtom_bonds, addAtom_bonds, hd]
  simp [ht]

/-! Membership lemmas for adjPush seen through neighbors. -/

theorem getD_adjPush_self (adj : List (T × List T)) (k x : T) :
    (alook (adjPush adj k x) k).getD [] = (alook adj k).getD [] ++ [x] := by
  rw [alook_adjPush_self]
  rfl

theorem getD_adjPush_ne (adj : List (T × List T)) {k y : T} (x : T) (h : y ≠ k) :
    (alook (adjPush adj k x) y).getD [] = (alook adj y).getD [] := by
  rw [alook_adjPush_ne _ _ h]

theorem mem_adjPush_getD (adj : List (T × List T)) (k x : T) {y z : T}
    (h : z ∈ (alook adj y).getD []) : z ∈ (alook (adjPush adj k x) y).getD [] := by
  by_cases hy : y = k
  · subst hy
    rw [getD_adjPush_self]
    exact List.mem_append_left _ h
  · rwa [getD_adjPush_ne _ _ hy]

theorem adjPush_isSome (adj : List (T × List T)) (k x : T) {y : T}
    (h : (alook adj y).isSome) : (alook (adjPush adj k x) y).isSome := by
  by_cases hy : y = k
  · subst hy
    rw [alook_adjPush_self]
    rfl
  · rwa [alook_adjPush_ne _ _ hy]

theorem adjPush_keys_nodup (adj : List (T × List T)) (k x : T)
    (h : (adj.map Prod.fst).Nodup) : ((adjPush adj k x).map Prod.fst).Nodup := by
  rcases hs : alook adj k with _ | v
  · rw [adjPush_keys_of_none _ _ hs, List.nodup_append]
    refine ⟨h, List.nodup_singleton k, ?_⟩
    intro y hy hy2
    rw [List.mem_singleton] at hy2
    subst hy2
    exact (alook_eq_none_iff _ _).mp hs hy
  · rw [adjPush_keys_of_some _ _ (by simp [hs])]
    exact h

theorem adjPush_isSome_of_key (adj : List (T × List T)) (k x : T) {y : T}
    (h : (alook (adjPush adj k x) y).isSome) :
    (alook adj y).isSome ∨ y = k := by
  by_cases hy : y = k
  · exact Or.inr hy
  · rw [alook_adjPush_ne _ _ hy] at h
    exact Or.inl h

theorem wf_addBond {g : Molecule T} (hg : Wf g) (a b : T) (t : BondType) :
    Wf (g.addBond a b t) := by
  have hg1 : Wf ((g.addAtom a).addAtom b) := wf_addAtom (wf_addAtom hg a) b
  have hga : a ∈ ((g.addAtom a).addAtom b).atoms :=
    addAtom_atoms_sub _ b (addAtom_mem_self g a)
  have hgb : b ∈ ((g.addAtom a).addAtom b).atoms := addAtom_mem_self _ b
  have hbonds : ((g.addAtom a).addAtom b).bonds = g.bonds := by
    rw [addAtom_bonds, addAtom_bonds]
  rcases hd : Molecule.bondMem g.bonds a b t with _ | _
  · by_cases ht : t = BondType.ARROW
    · subst ht
      rw [addBond_eq_arrow hd]
      refine ⟨hg1.atomsNodup, adjPush_keys_nodup _ _ _ hg1.adjKeysNodup, ?_, ?_, ?_, ?_, ?_, ?_⟩
      · intro bd hb
        rcases List.mem_append.mp hb with hb | hb
        · exact hg1.bondFro bd (by rw [hbonds]; exact hb)
        · rw [List.mem_singleton] at hb
          subst hb
          exact hga
      · intro bd hb
        rcases List.mem_append.mp hb with hb | hb
        · exact hg1.bondTo bd (by rw [hbonds]; exact hb)
        · rw [List.mem_singleton] at hb
          subst hb
          exact hgb
      · intro x hx
        exact adjPush_isSome _ _ _ (hg1.atomAdj x hx)
      · intro x hx
        rcases adjPush_isSome_of_key _ _ _ hx with hx | rfl
        · exact hg1.adjAtom x hx
        · exact hga
      · intro bd hb
        rcases List.mem_append.mp hb with hb | hb
        · exact mem_adjPush_getD _ _ _ (hg1.bondFwd bd (by rw [hbonds]; exact hb))
        · rw [List.mem_singleton] at hb
          subst hb
          show b ∈ (alook (adjPush _ a b) a).getD []
          rw [getD_adjPush_self]
          simp
      · intro bd hb hbt
        rcases List.mem_append.mp hb with hb | hb
        · exact mem_adjPush_getD _ _ _ (hg1.bondRev bd (by rw [hbonds]; exact hb) hbt)
        · rw [List.mem_singleton] at hb
          subst hb
          exact absurd rfl hbt
    · rw [addBond_eq_rev hd ht]
      refine ⟨hg1.atomsNodup, adjPush_keys_nodup _ _ _ (adjPush_keys_nodup _ _ _ hg1.adjKeysNodup), ?_, ?_, ?_, ?_, ?_, ?_⟩
      · intro bd hb
        rcases List.mem_append.mp hb with hb | hb
        · exact hg1.bondFro bd (by rw [hbonds]; exact hb)
        · rw [List.mem_singleton] at hb
          subst hb
          exact hga
      · intro bd hb
        rcases List.mem_append.mp hb with hb | hb
        · exact hg1.bondTo bd (by rw [hbonds]; exact hb)
        · rw [List.mem_singleton] at hb
          subst hb
          exact hgb
      · intro x hx
        exact adjPush_isSome _ _ _ (adjPush_isSome _ _ _ (hg1.atomAdj x hx))
      · intro x hx
        rcases adjPush_isSome_of_key _ _ _ hx with hx | rfl
        · rcases adjPush_isSome_of_key _ _ _ hx with hx | rfl
          · exact hg1.adjAtom x hx
          · exact hga
        · exact hgb
      · intro bd hb
        rcases List.mem_append.mp hb with hb | hb
        · exact mem_adjPush_getD _ _ _
            (mem_adjPush_getD _ _ _ (hg1.bondFwd bd (by rw [hbonds]; exact hb)))
        · rw [List.mem_singleton] at hb
          subst hb
          show b ∈ (alook (adjPush (adjPush _ a b) b a) a).getD []
          exact mem_adjPush_getD _ _ _ (by rw [getD_adjPush_self]; simp)
      · intro bd hb hbt
        rcases List.mem_append.mp hb with hb | hb
        · exact mem_adjPush_getD _ _ _
            (mem_adjPush_getD _ _ _ (hg1.bondRev bd (by rw [hbonds]; exact hb) hbt))
        · rw [List.mem_singleton] at hb
          subst hb
          show a ∈ (alook (adjPush (adjPush _ a b) b a) b).getD []
          rw [getD_adjPush_self]
          simp
  · rw [addBond_of_dup hd]
    exact hg1

theorem wf_clear (g : Molecule T) : Wf (g.clear) := by
  constructor <;> simp [Molecule.clear, alook, Molecule.neighbors]

/-! The operation language of claim C9: any sequence of addNode, addEdge
and clear operations applied from the empty graph. -/

/-- A mutation of the graph entity: addNode, addEdge, or clear. -/
inductive Op (T : Type) where
  | addNode : T → Op T
  | addEdge : T → T → BondType → Op T
  | clearOp : Op T

/-- Apply one mutation. -/
def applyOp (g : Molecule T) : Op T → Molecule T
  | Op.addNode n => g.addAtom n
  | Op.addEdge a b t => g.addBond a b t
  | Op.clearOp => g.clear

/-- Run a sequence of mutations from the empty graph. -/
def runOps (ops : List (Op T)) : Molecule T :=
  ops.foldl applyOp emptyGraph

theorem wf_applyOp {g : Molecule T} (hg : Wf g) (op : Op T) :
    Wf (applyOp g op) := by
  cases op with
  | addNode n => exact wf_addAtom hg n
  | addEdge a b t => exact wf_addBond hg a b t
  | clearOp => exact wf_clear g

theorem wf_foldl {g : Molecule T} (hg : Wf g) (ops : List (Op T)) :
    Wf (ops.foldl applyOp g) := by
  induction ops generalizing g with
  | nil => exact hg
  | cons op ops ih => exact ih (wf_applyOp hg op)

theorem wf_runOps (ops : List (Op T)) : Wf (runOps (T := T) ops) :=
  wf_foldl wf_emptyGraph ops

/-- C9: after any sequence of addNode, addEdge and clear operations starting
from the empty graph, both endpoints of every stored edge are in the node
set, the node set has no duplicates, and every node has an adjacency entry. -/
theorem claim_C9_invariants (ops : List (Op T)) :
    (∀ bd ∈ (runOps ops).bonds,
        bd.fro ∈ (runOps ops).atoms ∧ bd.toN ∈ (runOps ops).atoms) ∧
    (runOps ops).atoms.Nodup ∧
    (∀ a ∈ (runOps ops).atoms, (alook (runOps ops).adjacency a).isSome) :=
  ⟨fun bd hb => ⟨(wf_runOps ops).bondFro bd hb, (wf_runOps ops).bondTo bd hb⟩,
    (wf_runOps ops).atomsNodup, (wf_runOps ops).atomAdj⟩

/-- C3: addNode of a present node and addEdge of an already stored
(from, to, kind) triple are no-ops: the whole graph state, and hence the
node and edge counts, are unchanged. -/
theorem claim_C3_idempotent (g : Molecule T) (n a b : T) (t : BondType)
    (hg : Wf g) :
    (n ∈ g.atoms → g.addAtom n = g) ∧
    (Molecule.bondMem g.bonds a b t = true → g.addBond a b t = g) := by
  refine ⟨fun hn => addAtom_of_mem hn, fun hd => ?_⟩
  have hbd : MoleculeBond.mk a b t ∈ g.bonds := (bondMem_iff _ _ _ _).mp hd
  have ha : a ∈ g.atoms := hg.bondFro _ hbd
  have hb : b ∈ g.atoms := hg.bondTo _ hbd
  rw [addBond_of_dup hd, addAtom_of_mem ha, addAtom_of_mem hb]

/-- Closed witness for C3: on the concrete graph with atom 0 and bond
(0, 1, SINGLE), repeating the insertions changes nothing. -/
theorem claim_C3_idempotent_witness :
    ((0 : Nat) ∈ (emptyGraph.addBond 0 1 BondType.SINGLE).atoms →
        (emptyGraph.addBond 0 1 BondType.SINGLE).addAtom 0 =
          emptyGraph.addBond 0 1 BondType.SINGLE) ∧
    (Molecule.bondMem (emptyGraph.addBond 0 1 BondType.SINGLE).bonds 0 1
          BondType.SINGLE = true →
        (emptyGraph.addBond 0 1 BondType.SINGLE).addBond 0 1 BondType.SINGLE =
          emptyGraph.addBond 0 1 BondType.SINGLE) :=
  claim_C3_idempotent (emptyGraph.addBond 0 1 BondType.SINGLE) 0 0 1
    BondType.SINGLE (wf_addBond wf_emptyGraph 0 1 BondType.SINGLE)

/-- C1: adding a previously absent (a, b, kind) edge always appends b to
adjacency[a]; it appends a to adjacency[b] exactly for SINGLE, DOUBLE and
BIDIRECTIONAL (never for ARROW, whose reverse list is untouched), and
DOUBLE updates adjacency exactly as BIDIRECTIONAL does. -/
theorem claim_C1_addEdge_adjacency (g : Molecule T) (a b : T) (t : BondType)
    (hd : Molecule.bondMem g.bonds a b t = false) :
    (a ≠ b ∨ t = BondType.ARROW →
        (g.addBond a b t).neighbors a = g.neighbors a ++ [b]) ∧
    (a = b → t ≠ BondType.ARROW →
        (g.addBond a b t).neighbors a = g.neighbors a ++ [b, a]) ∧
    (t ≠ BondType.ARROW → a ≠ b →
        (g.addBond a b t).neighbors b = g.neighbors b ++ [a]) ∧
    (t = BondType.ARROW → a ≠ b →
        (g.addBond a b t).neighbors b = g.neighbors b) ∧
    (∀ hd2 : Molecule.bondMem g.bonds a b BondType.DOUBLE = false,
      ∀ hb2 : Molecule.bondMem g.bonds a b BondType.BIDIRECTIONAL = false,
        (g.addBond a b BondType.DOUBLE).adjacency =
          (g.addBond a b BondType.BIDIRECTIONAL).adjacency) := by
  have hnb : ∀ x, (alook ((g.addAtom a).addAtom b).adjacency x).getD [] =
      g.neighbors x := fun x =>
    (neighbors_addAtom (g.addAtom a) b x).trans (neighbors_addAtom g a x)
  refine ⟨?_, ?_, ?_, ?_, ?_⟩
  · rintro (hab | rfl)
    · by_cases ht : t = BondType.ARROW
      · subst ht
        rw [addBond_eq_arrow hd]
        show (alook (adjPush _ a b) a).getD [] = _
        rw [getD_adjPush_self]
        rw [hnb a]
      · rw [addBond_eq_rev hd ht]
        show (alook (adjPush (adjPush _ a b) b a) a).getD [] = _
        rw [getD_adjPush_ne _ _ hab, getD_adjPush_self, hnb a]
    · rw [addBond_eq_arrow hd]
      show (alook (adjPush _ a b) a).getD [] = _
      rw [getD_adjPush_self, hnb a]
  · rintro rfl ht
    rw [addBond_eq_rev hd ht]
    show (alook (adjPush (adjPush _ a a) a a) a).getD [] = _
    rw [getD_adjPush_self, getD_adjPush_self, hnb a]
    simp
  · intro ht hab
    rw [addBond_eq_rev hd ht]
    show (alook (adjPush (adjPush _ a b) b a) b).getD [] = _
    rw [getD_adjPush_self, getD_adjPush_ne _ _ (Ne.symm hab), hnb b]
  · rintro rfl hab
    rw [addBond_eq_arrow hd]
    show (alook (adjPush _ a b) b).getD [] = _
    rw [getD_adjPush_ne _ _ (Ne.symm hab), hnb b]
  · intro hd2 hb2
    rw [addBond_eq_rev hd2 (by intro h; cases h),
      addBond_eq_rev hb2 (by intro h; cases h)]

/-- Closed witness for C1: the empty graph with edge (0, 1) for each kind. -/
theorem claim_C1_addEdge_adjacency_witness :
    (((0 : Nat) ≠ 1 ∨ BondType.SINGLE = BondType.ARROW →
        (emptyGraph.addBond 0 1 BondType.SINGLE).neighbors 0 =
          emptyGraph.neighbors 0 ++ [1]) ∧
      ((0 : Nat) = 1 → BondType.SINGLE ≠ BondType.ARROW →
        (emptyGraph.addBond 0 1 BondType.SINGLE).neighbors 0 =
          emptyGraph.neighbors 0 ++ [1, 0]) ∧
      (BondType.SINGLE ≠ BondType.ARROW → (0 : Nat) ≠ 1 →
        (emptyGraph.addBond 0 1 BondType.SINGLE).neighbors 1 =
          emptyGraph.neighbors 1 ++ [0]) ∧
      (BondType.SINGLE = BondType.ARROW → (0 : Nat) ≠ 1 →
        (emptyGraph.addBond 0 1 BondType.SINGLE).neighbors 1 =
          emptyGraph.neighbors 1) ∧
      (∀ hd2 : Molecule.bondMem (emptyGraph (T := Nat)).bonds 0 1
            BondType.DOUBLE = false,
        ∀ hb2 : Molecule.bondMem (emptyGraph (T := Nat)).bonds 0 1
            BondType.BIDIRECTIONAL = false,
          (emptyGraph.addBond 0 1 BondType.DOUBLE).adjacency =
            (emptyGraph.addBond 0 1 BondType.BIDIRECTIONAL).adjacency)) :=
  claim_C1_addEdge_adjacency emptyGraph 0 1 BondType.SINGLE (by decide)

/-- C10: hasEdge matches the stored orientation exactly even for the
undirected SINGLE kind: after addEdge(a, b, SINGLE) with no stored
(b, a, SINGLE) edge, hasEdge(b, a, SINGLE) is false although
hasEdge(a, b, SINGLE) is true and a is in neighbors(b). -/
theorem claim_C10_hasEdge_directional (g : Molecule T) (a b : T) (hg : Wf g)
    (hab : a ≠ b)
    (hrev : Molecule.bondMem g.bonds b a BondType.SINGLE = false) :
    (g.addBond a b BondType.SINGLE).hasBond b a BondType.SINGLE = false ∧
    (g.addBond a b BondType.SINGLE).hasBond a b BondType.SINGLE = true ∧
    a ∈ (g.addBond a b BondType.SINGLE).neighbors b := by
  have hnb : ∀ x, ((g.addAtom a).addAtom b).neighbors x = g.neighbors x := by
    intro x
    rw [neighbors_addAtom, neighbors_addAtom]
  have hbonds : ((g.addAtom a).addAtom b).bonds = g.bonds := by
    rw [addAtom_bonds, addAtom_bonds]
  rcases hd : Molecule.bondMem g.bonds a b BondType.SINGLE with _ | _
  · rw [addBond_eq_rev hd (by intro h; cases h)]
    refine ⟨?_, ?_, ?_⟩
    · show Molecule.bondMem (g.bonds ++ [MoleculeBond.mk a b BondType.SINGLE]) b a
          BondType.SINGLE = false
      rw [bondMem_append, hrev]
      simp [Molecule.bondMem, hab]
    · show Molecule.bondMem (g.bonds ++ [MoleculeBond.mk a b BondType.SINGLE]) a b
          BondType.SINGLE = true
      rw [bondMem_append]
      simp [Molecule.bondMem]
    · show a ∈ (alook (adjPush (adjPush _ a b) b a) b).getD []
      rw [getD_adjPush_self]
      simp
  · rw [addBond_of_dup hd]
    refine ⟨?_, ?_, ?_⟩
    · show Molecule.bondMem ((g.addAtom a).addAtom b).bonds b a
          BondType.SINGLE = false
      rw [hbonds]
      exact hrev
    · show Molecule.bondMem ((g.addAtom a).addAtom b).bonds a b
          BondType.SINGLE = true
      rw [hbonds]
      exact hd
    · rw [hnb b]
      exact hg.bondRev _ ((bondMem_iff _ _ _ _).mp hd) (by intro h; cases h)

/-- Closed witness for C10: the empty graph, a = 0, b = 1. -/
theorem claim_C10_hasEdge_directional_witness :
    ((emptyGraph.addBond 0 1 BondType.SINGLE).hasBond 1 0
        BondType.SINGLE = false ∧
      ((emptyGraph (T := Nat)).addBond 0 1 BondType.SINGLE).hasBond 0 1
        BondType.SINGLE = true ∧
      (0 : Nat) ∈ (emptyGraph.addBond 0 1 BondType.SINGLE).neighbors 1) :=
  claim_C10_hasEdge_directional emptyGraph 0 1 wf_emptyGraph (by decide)
    (by decide)

/-! Generic BFS machinery.  Every BFS loop of the source (Molecule::bfs,
Molecule::hasPath, graphHasPath, graphShortestPath, graphCountComponents,
graphIsBipartite) shares the same queue discipline: pop the front, scan the
neighbor list in order, and push each not-yet-visited neighbor at the back,
marking it visited at enqueue time.  bfsRun is that common loop, recorded
with the dequeue order; the individual source loops are proved equivalent
to projections of it. -/

/-- One directed step of a neighbor function. -/
def adjRel (nf : T → List T) (a b : T) : Prop := b ∈ nf a

/-- Reachability through a neighbor function. -/
def Reach (nf : T → List T) : T → T → Prop := Relation.ReflTransGen (adjRel nf)

/-- The neighbor scan of a BFS iteration: each neighbor that is not yet
visited is appended to the queue and marked visited. -/
def enqueue : List T → List T → List T → List T × List T
  | [], q, v => (q, v)
  | n :: ns, q, v =>
    if n ∈ v then enqueue ns q v else enqueue ns (q ++ [n]) (n :: v)

/-- The visited-marking BFS loop: fuel, queue, visited, dequeue order in;
final queue, visited and dequeue order out. -/
def bfsRun (nf : T → List T) :
    Nat → List T → List T → List T → List T × List T × List T
  | 0, q, v, r => (q, v, r)
  | _ + 1, [], v, r => ([], v, r)
  | fuel + 1, c :: q, v, r =>
    bfsRun nf fuel (enqueue (nf c) q v).1 (enqueue (nf c) q v).2 (r ++ [c])

theorem enqueue_fst_mem (ns : List T) : ∀ (q v : List T) (x : T),
    x ∈ (enqueue ns q v).1 ↔ x ∈ q ∨ (x ∈ ns ∧ x ∉ v) := by
  induction ns with
  | nil => intro q v x; simp [enqueue]
  | cons n ns ih =>
    intro q v x
    by_cases hn : n ∈ v
    · rw [enqueue, if_pos hn, ih, List.mem_cons]
      constructor
      · tauto
      · rintro (h | ⟨(rfl | h1), h2⟩) <;> tauto
    · rw [enqueue, if_neg hn, ih, List.mem_cons, List.mem_cons, List.mem_append,
        List.mem_singleton]
      by_cases hx : x = n
      · subst hx
        tauto
      · tauto

theorem enqueue_snd_mem (ns : List T) : ∀ (q v : List T) (x : T),
    x ∈ (enqueue ns q v).2 ↔ x ∈ v ∨ x ∈ ns := by
  induction ns with
  | nil => intro q v x; simp [enqueue]
  | cons n ns ih =>
    intro q v x
    by_cases hn : n ∈ v
    · rw [enqueue, if_pos hn, ih, List.mem_cons]
      constructor
      · tauto
      · rintro (h | rfl | h) <;> tauto
    · rw [enqueue, if_neg hn, ih, List.mem_cons, List.mem_cons]
      tauto

theorem enqueue_len (ns : List T) : ∀ (q v : List T),
    (enqueue ns q v).2.length + q.length =
      v.length + (enqueue ns q v).1.length := by
  induction ns with
  | nil => intro q v; simp [enqueue]
  | cons n ns ih =>
    intro q v
    by_cases hn : n ∈ v
    · rw [enqueue, if_pos hn]
      exact ih q v
    · rw [enqueue, if_neg hn]
      have := ih (q ++ [n]) (n :: v)
      simp only [List.length_append, List.length_cons, List.length_nil] at this
      omega

theorem enqueue_fst_len_ge (ns : List T) : ∀ (q v : List T),
    q.length ≤ (enqueue ns q v).1.length := by
  induction ns with
  | nil => intro q v; simp [enqueue]
  | cons n ns ih =>
    intro q v
    by_cases hn : n ∈ v
    · rw [enqueue, if_pos hn]
      exact ih q v
    · rw [enqueue, if_neg hn]
      calc q.length ≤ (q ++ [n]).length := by simp
        _ ≤ _ := ih (q ++ [n]) (n :: v)

theorem enqueue_nodup (ns : List T) : ∀ (q v r : List T),
    (r ++ q).Nodup → (∀ x ∈ r ++ q, x ∈ v) → v.Nodup →
    ((r ++ (enqueue ns q v).1).Nodup ∧
      (∀ x ∈ r ++ (enqueue ns q v).1, x ∈ (enqueue ns q v).2) ∧
      (enqueue ns q v).2.Nodup) := by
  induction ns with
  | nil =>
    intro q v r hnd hsub hvnd
    exact ⟨hnd, hsub, hvnd⟩
  | cons n ns ih =>
    intro q v r hnd hsub hvnd
    by_cases hn : n ∈ v
    · rw [enqueue, if_pos hn]
      exact ih q v r hnd hsub hvnd
    · rw [enqueue, if_neg hn]
      have hnrq : n ∉ r ++ q := fun h => hn (hsub n h)
      refine ih (q ++ [n]) (n :: v) r ?_ ?_ ?_
      · rw [← List.append_assoc]
        rw [List.nodup_append]
        refine ⟨hnd, List.nodup_singleton n, ?_⟩
        intro x hx hx2
        rw [List.mem_singleton] at hx2
        subst hx2
        exact hnrq hx
      · intro x hx
        rw [← List.append_assoc] at hx
        rcases List.mem_append.mp hx with hx | hx
        · exact List.mem_cons_of_mem n (hsub x hx)
        · rw [List.mem_singleton] at hx
          subst hx
          exact List.mem_cons_self x v
      · exact List.nodup_cons.mpr ⟨hn, hvnd⟩

theorem enqueue_snd_nodup (ns : List T) : ∀ (q v : List T),
    v.Nodup → (enqueue ns q v).2.Nodup := by
  induction ns with
  | nil => intro q v h; exact h
  | cons n ns ih =>
    intro q v h
    by_cases hn : n ∈ v
    · rw [enqueue, if_pos hn]
      exact ih q v h
    · rw [enqueue, if_neg hn]
      exact ih (q ++ [n]) (n :: v) (List.nodup_cons.mpr ⟨hn, h⟩)

/-- The bundled loop invariant of bfsRun: the visited set is exactly the
dequeued nodes plus the queue, everything stays nodup, every visited node
satisfies any step-closed predicate holding on the initial visited set, and
every dequeued node has all its neighbors visited. -/
theorem bfsRun_inv (nf : T → List T) (P : T → Prop)
    (hP : ∀ a b, P a → b ∈ nf a → P b) :
    ∀ (fuel : Nat) (q v r : List T),
      (∀ x, x ∈ v ↔ x ∈ r ∨ x ∈ q) →
      (r ++ q).Nodup → v.Nodup →
      (∀ x ∈ v, P x) →
      (∀ x ∈ r, ∀ y ∈ nf x, y ∈ v) →
      (∀ x, x ∈ (bfsRun nf fuel q v r).2.1 ↔
          x ∈ (bfsRun nf fuel q v r).2.2 ∨ x ∈ (bfsRun nf fuel q v r).1) ∧
      ((bfsRun nf fuel q v r).2.2 ++ (bfsRun nf fuel q v r).1).Nodup ∧
      (bfsRun nf fuel q v r).2.1.Nodup ∧
      (∀ x ∈ (bfsRun nf fuel q v r).2.1, P x) ∧
      (∀ x ∈ (bfsRun nf fuel q v r).2.2, ∀ y ∈ nf x,
          y ∈ (bfsRun nf fuel q v r).2.1) ∧
      (∀ x ∈ v, x ∈ (bfsRun nf fuel q v r).2.1) ∧
      (∀ x ∈ r, x ∈ (bfsRun nf fuel q v r).2.2) := by
  intro fuel
  induction fuel with
  | zero =>
    intro q v r hvset hrq hvnd hsound hclosed
    exact ⟨hvset, hrq, hvnd, hsound, hclosed, fun x hx => hx, fun x hx => hx⟩
  | succ fuel ih =>
    intro q v r hvset hrq hvnd hsound hclosed
    match q with
    | [] =>
      exact ⟨hvset, hrq, hvnd, hsound, hclosed, fun x hx => hx, fun x hx => hx⟩
    | c :: q2 =>
      have hcv : c ∈ v := (hvset c).mpr (Or.inr (List.mem_cons_self c q2))
      have hnd0 : ((r ++ [c]) ++ q2).Nodup := by
        rw [List.append_assoc]
        exact hrq
      have hsub0 : ∀ x ∈ (r ++ [c]) ++ q2, x ∈ v := by
        intro x hx
        rw [List.append_assoc] at hx
        refine (hvset x).mpr ?_
        rcases List.mem_append.mp hx with hx | hx
        · exact Or.inl hx
        · exact Or.inr hx
      obtain ⟨hnd2, hsub2, hvnd2⟩ := enqueue_nodup (nf c) q2 v (r ++ [c]) hnd0 hsub0 hvnd
      have h1 : ∀ x, x ∈ (enqueue (nf c) q2 v).2 ↔
          x ∈ r ++ [c] ∨ x ∈ (enqueue (nf c) q2 v).1 := by
        intro x
        rw [enqueue_snd_mem, enqueue_fst_mem]
        constructor
        · rintro (hx | hx)
          · rcases (hvset x).mp hx with hx | hx
            · exact Or.inl (List.mem_append_left _ hx)
            · rcases List.mem_cons.mp hx with rfl | hx
              · exact Or.inl (List.mem_append_right _ (List.mem_singleton.mpr rfl))
              · exact Or.inr (Or.inl hx)
          · by_cases hxv : x ∈ v
            · rcases (hvset x).mp hxv with h2 | h2
              · exact Or.inl (List.mem_append_left _ h2)
              · rcases List.mem_cons.mp h2 with rfl | h2
                · exact Or.inl (List.mem_append_right _ (List.mem_singleton.mpr rfl))
                · exact Or.inr (Or.inl h2)
            · exact Or.inr (Or.inr ⟨hx, hxv⟩)
        · rintro (hx | hx)
          · rcases List.mem_append.mp hx with hx | hx
            · exact Or.inl ((hvset x).mpr (Or.inl hx))
            · rw [List.mem_singleton] at hx
              subst hx
              exact Or.inl hcv
          · rcases hx with hx | ⟨hx1, _⟩
            · exact Or.inl ((hvset x).mpr (Or.inr (List.mem_cons_of_mem c hx)))
            · exact Or.inr hx1
      have h2 : ∀ x ∈ (enqueue (nf c) q2 v).2, P x := by
        intro x hx
        rw [enqueue_snd_mem] at hx
        rcases hx with hx | hx
        · exact hsound x hx
        · exact hP c x (hsound c hcv) hx
      have h3 : ∀ x ∈ r ++ [c], ∀ y ∈ nf x, y ∈ (enqueue (nf c) q2 v).2 := by
        intro x hx y hy
        rw [enqueue_snd_mem]
        rcases List.mem_append.mp hx with hx | hx
        · exact Or.inl (hclosed x hx y hy)
        · rw [List.mem_singleton] at hx
          subst hx
          exact Or.inr hy
      obtain ⟨c1, c2, c3, c4, c5, c6, c7⟩ :=
        ih (enqueue (nf c) q2 v).1 (enqueue (nf c) q2 v).2 (r ++ [c])
          h1 hnd2 hvnd2 h2 h3
      rw [show bfsRun nf (fuel + 1) (c :: q2) v r =
          bfsRun nf fuel (enqueue (nf c) q2 v).1 (enqueue (nf c) q2 v).2
            (r ++ [c]) from rfl]
      refine ⟨c1, c2, c3, c4, c5, ?_, ?_⟩
      · intro x hx
        exact c6 x ((enqueue_snd_mem (nf c) q2 v x).mpr (Or.inl hx))
      · intro x hx
        exact c7 x (List.mem_append_left _ hx)

/-- With enough fuel, the BFS queue is fully drained. -/
theorem bfsRun_empties (nf : T → List T) (U : List T)
    (hU : ∀ a, ∀ b ∈ nf a, b ∈ U) :
    ∀ (fuel : Nat) (q v r : List T),
      v.Nodup → (∀ x ∈ v, x ∈ U) → (∀ x ∈ q, x ∈ v) →
      (U.length + 1 - v.length) * (U.length + 1) + q.length ≤ fuel →
      (bfsRun nf fuel q v r).1 = [] := by
  intro fuel
  induction fuel with
  | zero =>
    intro q v r hvnd hvU hqv hle
    have hv : v.length ≤ U.length :=
      (List.subperm_of_subset hvnd hvU).length_le
    have : 0 < (U.length + 1 - v.length) * (U.length + 1) := by
      apply Nat.mul_pos <;> omega
    omega
  | succ fuel ih =>
    intro q v r hvnd hvU hqv hle
    match q with
    | [] => rw [bfsRun]
    | c :: q2 =>
      rw [show bfsRun nf (fuel + 1) (c :: q2) v r =
          bfsRun nf fuel (enqueue (nf c) q2 v).1 (enqueue (nf c) q2 v).2
            (r ++ [c]) from rfl]
      have hvlen : v.length ≤ U.length :=
        (List.subperm_of_subset hvnd hvU).length_le
      have hv2nd : (enqueue (nf c) q2 v).2.Nodup := enqueue_snd_nodup _ _ _ hvnd
      have hv2U : ∀ x ∈ (enqueue (nf c) q2 v).2, x ∈ U := by
        intro x hx
        rw [enqueue_snd_mem] at hx
        rcases hx with hx | hx
        · exact hvU x hx
        · exact hU c x hx
      have hq2v : ∀ x ∈ (enqueue (nf c) q2 v).1, x ∈ (enqueue (nf c) q2 v).2 := by
        intro x hx
        rw [enqueue_fst_mem] at hx
        rw [enqueue_snd_mem]
        rcases hx with hx | ⟨hx, _⟩
        · exact Or.inl (hqv x (List.mem_cons_of_mem c hx))
        · exact Or.inr hx
      have hv2len : (enqueue (nf c) q2 v).2.length ≤ U.length :=
        (List.subperm_of_subset hv2nd hv2U).length_le
      have hlen := enqueue_len (nf c) q2 v
      have hqge := enqueue_fst_len_ge (nf c) q2 v
      refine ih _ _ _ hv2nd hv2U hq2v ?_
      have hexp : (U.length + 1 - v.length) * (U.length + 1) =
          (U.length + 1 - (enqueue (nf c) q2 v).2.length) * (U.length + 1) +
            ((enqueue (nf c) q2 v).2.length - v.length) * (U.length + 1) := by
        rw [← Nat.add_mul]
        congr 1
        omega
      have hk2 : (enqueue (nf c) q2 v).2.length - v.length ≤
          ((enqueue (nf c) q2 v).2.length - v.length) * (U.length + 1) := by
        calc (enqueue (nf c) q2 v).2.length - v.length
            = ((enqueue (nf c) q2 v).2.length - v.length) * 1 :=
              (Nat.mul_one _).symm
          _ ≤ _ := Nat.mul_le_mul_left _ (by omega)
      simp only [List.length_cons] at hle
      omega

/-- Full correctness of the drained BFS from a single start node: the
dequeue order contains exactly the reachable nodes, each once. -/
theorem bfsRun_start_spec (nf : T → List T) (U : List T) (start : T)
    (hU : ∀ a, ∀ b ∈ nf a, b ∈ U) (hstart : start ∈ U) :
    (bfsRun nf ((U.length + 1) * (U.length + 1)) [start] [start] []).1 = [] ∧
    (∀ x, x ∈ (bfsRun nf ((U.length + 1) * (U.length + 1))
        [start] [start] []).2.2 ↔ Reach nf start x) ∧
    (bfsRun nf ((U.length + 1) * (U.length + 1)) [start] [start] []).2.2.Nodup := by
  set res := bfsRun nf ((U.length + 1) * (U.length + 1)) [start] [start] []
    with hres
  have hempty : res.1 = [] := by
    rw [hres]
    refine bfsRun_empties nf U hU _ [start] [start] []
      (List.nodup_singleton _) ?_ ?_ ?_
    · intro x hx
      rw [List.mem_singleton] at hx
      subst hx
      exact hstart
    · intro x hx
      exact hx
    · have hsm : (U.length + 1) * (U.length + 1) =
          U.length * (U.length + 1) + (U.length + 1) := Nat.succ_mul _ _
      have h1 : ([start] : List T).length = 1 := rfl
      rw [h1]
      have h2 : U.length + 1 - 1 = U.length := by omega
      rw [h2]
      omega
  obtain ⟨c1, c2, c3, c4, c5, c6, c7⟩ :=
    bfsRun_inv nf (Reach nf start)
      (fun a b ha hb => Relation.ReflTransGen.tail ha hb)
      ((U.length + 1) * (U.length + 1)) [start] [start] []
      (by intro x; simp) (by simp) (List.nodup_singleton _)
      (by
        intro x hx
        rw [List.mem_singleton] at hx
        subst hx
        exact Relation.ReflTransGen.refl)
      (by intro x hx; simp at hx)
  refine ⟨hempty, ?_, ?_⟩
  · intro x
    constructor
    · intro hx
      exact c4 x ((c1 x).mpr (Or.inl hx))
    · intro hx
      have hxv : x ∈ res.2.1 := by
        induction hx with
        | refl => exact c6 start (List.mem_singleton.mpr rfl)
        | tail h1 h2 ih =>
          rename_i b c
          have hbr : b ∈ res.2.2 := by
            rcases (c1 b).mp ih with hb | hb
            · exact hb
            · rw [hempty] at hb
              simp at hb
          exact c5 b hbr c h2
      rcases (c1 x).mp hxv with hx2 | hx2
      · exact hx2
      · rw [hempty] at hx2
        simp at hx2
  · have := c2
    rw [hempty] at this
    simpa using this

/-- All successor values stored in the adjacency mapping, in order. -/
def Molecule.adjValues (g : Molecule T) : List T :=
  g.adjacency.foldr (fun p acc => p.2 ++ acc) []

theorem alook_mem {B : Type} :
    ∀ (l : List (T × B)) (x : T) (v : B), alook l x = some v → (x, v) ∈ l := by
  intro l
  induction l with
  | nil => intro x v h; simp [alook] at h
  | cons p rest ih =>
    intro x v h
    obtain ⟨k, w⟩ := p
    rw [alook] at h
    by_cases hk : k = x
    · rw [if_pos hk] at h
      cases h
      subst hk
      exact List.mem_cons_self _ _
    · rw [if_neg hk] at h
      exact List.mem_cons_of_mem _ (ih x v h)

theorem mem_foldr_append {l : List (T × List T)} {p : T × List T}
    (hp : p ∈ l) {b : T} (hb : b ∈ p.2) :
    b ∈ l.foldr (fun p2 acc => p2.2 ++ acc) [] := by
  induction l with
  | nil => simp at hp
  | cons p2 rest ih =>
    rw [List.foldr_cons]
    rcases List.mem_cons.mp hp with rfl | hp
    · exact List.mem_append_left _ hb
    · exact List.mem_append_right _ (ih hp)

theorem mem_adjValues_of_pair {g : Molecule T} {p : T × List T}
    (hp : p ∈ g.adjacency) {b : T} (hb : b ∈ p.2) : b ∈ g.adjValues :=
  mem_foldr_append hp hb

theorem mem_adjValues_of_neighbor {g : Molecule T} {a b : T}
    (h : b ∈ g.neighbors a) : b ∈ g.adjValues := by
  unfold Molecule.neighbors at h
  rcases hs : alook g.adjacency a with _ | l
  · rw [hs] at h
    simp at h
  · rw [hs] at h
    exact mem_adjValues_of_pair (alook_mem _ _ _ hs) h

/-- The finite universe that a traversal from a start node can touch. -/
def Molecule.bfsUniv (g : Molecule T) (start : T) : List T :=
  start :: g.adjValues

theorem bfsUniv_covers (g : Molecule T) (start : T) :
    ∀ a, ∀ b ∈ g.neighbors a, b ∈ g.bfsUniv start := by
  intro a b hb
  exact List.mem_cons_of_mem _ (mem_adjValues_of_neighbor hb)

/-- The fuel Molecule::bfs is run with; provably enough to drain the queue. -/
def Molecule.bfsFuel (g : Molecule T) (start : T) : Nat :=
  ((g.bfsUniv start).length + 1) * ((g.bfsUniv start).length + 1)

/-- Molecule::bfs: empty result for an absent start; otherwise the standard
queue-based traversal, visiting neighbors in adjacency-list order. -/
def Molecule.bfs (g : Molecule T) (start : T) : List T :=
  if g.hasAtom start = true then
    (bfsRun g.neighbors (g.bfsFuel start) [start] [start] []).2.2
  else []

theorem bfs_absent {g : Molecule T} {start : T} (h : start ∉ g.atoms) :
    g.bfs start = [] := by
  unfold Molecule.bfs
  rw [if_neg]
  simp [Molecule.hasAtom, h]

theorem bfs_spec {g : Molecule T} {start : T} (h : start ∈ g.atoms) :
    (∀ x, x ∈ g.bfs start ↔ Reach g.neighbors start x) ∧
      (g.bfs start).Nodup := by
  unfold Molecule.bfs
  rw [if_pos (by simp [Molecule.hasAtom, h])]
  obtain ⟨h1, h2, h3⟩ := bfsRun_start_spec g.neighbors (g.bfsUniv start) start
    (bfsUniv_covers g start) (List.mem_cons_self _ _)
  exact ⟨h2, h3⟩

/-! DFS.  Molecule::dfs delegates to the recursive dfsHelper: mark the node
visited, append it to the result, then recurse into each not-yet-visited
neighbor in adjacency-list order.  The recursion is modelled with fuel;
one unit is consumed per nested dfsHelper call, and the fuel bound is the
size of the reachable universe, which the spec lemma proves sufficient. -/

/-- Molecule::dfsHelper: state is (visited, result). -/
def dfsVisit (nf : T → List T) : Nat → T → List T × List T → List T × List T
  | 0, _, s => s
  | fuel + 1, node, s =>
    (nf node).foldl
      (fun s2 n => if n ∈ s2.1 then s2 else dfsVisit nf fuel n s2)
      (node :: s.1, s.2 ++ [node])

/-- The per-neighbor action of dfsHelper's loop. -/
def dfsStep (nf : T → List T) (fuel : Nat) (s : List T × List T) (n : T) :
    List T × List T :=
  if n ∈ s.1 then s else dfsVisit nf fuel n s

theorem dfsVisit_succ (nf : T → List T) (fuel : Nat) (node : T)
    (s : List T × List T) :
    dfsVisit nf (fuel + 1) node s =
      (nf node).foldl (dfsStep nf fuel) (node :: s.1, s.2 ++ [node]) := rfl

/-- Precondition of a dfsHelper call: fresh node, matching visited/result
sets, and enough fuel for the untouched part of the universe. -/
def DfsPre (U : List T) (node : T) (v r : List T) (fuel : Nat) : Prop :=
  node ∈ U ∧ node ∉ v ∧ (∀ x, x ∈ v ↔ x ∈ r) ∧ v.Nodup ∧ r.Nodup ∧
  (∀ x ∈ v, x ∈ U) ∧ U.length ≤ fuel + v.length

/-- Postcondition of a dfsHelper call: visited and result stay matching and
nodup, grow monotonically, contain the node, stay inside the universe, new
nodes are reachable from the node, and new nodes are fully explored. -/
def DfsOut (nf : T → List T) (U : List T) (v : List T) (node : T)
    (out : List T × List T) : Prop :=
  (∀ x, x ∈ out.1 ↔ x ∈ out.2) ∧ out.1.Nodup ∧ out.2.Nodup ∧
  (∀ x ∈ v, x ∈ out.1) ∧ node ∈ out.1 ∧
  (∀ x ∈ out.1, x ∈ U) ∧
  (∀ x ∈ out.1, x ∈ v ∨ Reach nf node x) ∧
  (∀ x ∈ out.1, x ∈ v ∨ ∀ y ∈ nf x, y ∈ out.1)

/-- The loop of dfsHelper, processing a list of neighbors of a fixed node,
assuming the one-call spec at the inner fuel level. -/
theorem dfsFold_spec (nf : T → List T) (U : List T)
    (hU : ∀ a, ∀ b ∈ nf a, b ∈ U) (fuel : Nat) (node : T)
    (hnodeU : node ∈ U)
    (IH : ∀ (n : T) (v r : List T), DfsPre U n v r fuel →
      DfsOut nf U v n (dfsVisit nf fuel n (v, r)))
    (v0 : List T) :
    ∀ (ns : List T) (v r : List T),
      (∀ n ∈ ns, n ∈ nf node) →
      (∀ x, x ∈ v ↔ x ∈ r) → v.Nodup → r.Nodup →
      (∀ x ∈ v, x ∈ U) →
      U.length ≤ fuel + v.length →
      (∀ x ∈ v, x ∈ v0 ∨ x = node ∨ ∀ y ∈ nf x, y ∈ v) →
      (∀ x ∈ v, x ∈ v0 ∨ Reach nf node x) →
      (∀ x, x ∈ (ns.foldl (dfsStep nf fuel) (v, r)).1 ↔
          x ∈ (ns.foldl (dfsStep nf fuel) (v, r)).2) ∧
      (ns.foldl (dfsStep nf fuel) (v, r)).1.Nodup ∧
      (ns.foldl (dfsStep nf fuel) (v, r)).2.Nodup ∧
      (∀ x ∈ v, x ∈ (ns.foldl (dfsStep nf fuel) (v, r)).1) ∧
      (∀ x ∈ (ns.foldl (dfsStep nf fuel) (v, r)).1, x ∈ U) ∧
      (∀ n ∈ ns, n ∈ (ns.foldl (dfsStep nf fuel) (v, r)).1) ∧
      (∀ x ∈ (ns.foldl (dfsStep nf fuel) (v, r)).1,
          x ∈ v0 ∨ Reach nf node x) ∧
      (∀ x ∈ (ns.foldl (dfsStep nf fuel) (v, r)).1,
          x ∈ v0 ∨ x = node ∨
            ∀ y ∈ nf x, y ∈ (ns.foldl (dfsStep nf fuel) (v, r)).1) := by
  intro ns
  induction ns with
  | nil =>
    intro v r hns hvr hvnd hrnd hvU hfuel hcl hsnd
    exact ⟨hvr, hvnd, hrnd, fun x hx => hx, hvU, by simp, hsnd, hcl⟩
  | cons n ns ih =>
    intro v r hns hvr hvnd hrnd hvU hfuel hcl hsnd
    rw [List.foldl_cons]
    by_cases hn : n ∈ v
    · rw [show dfsStep nf fuel (v, r) n = (v, r) from if_pos hn]
      obtain ⟨c1, c2, c3, c4, c5, c6, c7, c8⟩ :=
        ih v r (fun m hm => hns m (List.mem_cons_of_mem n hm))
          hvr hvnd hrnd hvU hfuel hcl hsnd
      refine ⟨c1, c2, c3, c4, c5, ?_, c7, c8⟩
      intro m hm
      rcases List.mem_cons.mp hm with rfl | hm
      · exact c4 m hn
      · exact c6 m hm
    · rw [show dfsStep nf fuel (v, r) n = dfsVisit nf fuel n (v, r) from
        if_neg hn]
      have hnU : n ∈ U := hU node n (hns n (List.mem_cons_self n ns))
      obtain ⟨o1, o2, o3, o4, o5, o6, o7, o8⟩ :=
        IH n v r ⟨hnU, hn, hvr, hvnd, hrnd, hvU, hfuel⟩
      have hsub1 : ∀ x ∈ v, x ∈ (dfsVisit nf fuel n (v, r)).1 := o4
      have hlen1 : v.length ≤ (dfsVisit nf fuel n (v, r)).1.length :=
        (List.subperm_of_subset hvnd hsub1).length_le
      have hcl2 : ∀ x ∈ (dfsVisit nf fuel n (v, r)).1,
          x ∈ v0 ∨ x = node ∨ ∀ y ∈ nf x, y ∈ (dfsVisit nf fuel n (v, r)).1 := by
        intro x hx
        rcases o8 x hx with h2 | h2
        · rcases hcl x h2 with h3 | h3 | h3
          · exact Or.inl h3
          · exact Or.inr (Or.inl h3)
          · exact Or.inr (Or.inr (fun y hy => hsub1 y (h3 y hy)))
        · exact Or.inr (Or.inr h2)
      have hsnd2 : ∀ x ∈ (dfsVisit nf fuel n (v, r)).1,
          x ∈ v0 ∨ Reach nf node x := by
        intro x hx
        rcases o7 x hx with h2 | h2
        · exact hsnd x h2
        · exact Or.inr
            (Relation.ReflTransGen.head (hns n (List.mem_cons_self n ns)) h2)
      obtain ⟨c1, c2, c3, c4, c5, c6, c7, c8⟩ :=
        ih (dfsVisit nf fuel n (v, r)).1 (dfsVisit nf fuel n (v, r)).2
          (fun m hm => hns m (List.mem_cons_of_mem n hm))
          o1 o2 o3 o6 (by omega) hcl2 hsnd2
      refine ⟨c1, c2, c3, fun x hx => c4 x (hsub1 x hx), c5, ?_, c7, c8⟩
      intro m hm
      rcases List.mem_cons.mp hm with rfl | hm
      · exact c4 m o5
      · exact c6 m hm

/-- The one-call spec of dfsHelper, by induction on fuel. -/
theorem dfsVisit_spec (nf : T → List T) (U : List T)
    (hU : ∀ a, ∀ b ∈ nf a, b ∈ U) :
    ∀ (fuel : Nat) (node : T) (v r : List T), DfsPre U node v r fuel →
      DfsOut nf U v node (dfsVisit nf fuel node (v, r)) := by
  intro fuel
  induction fuel with
  | zero =>
    intro node v r hpre
    obtain ⟨hnU, hnv, hvr, hvnd, hrnd, hvU, hfuel⟩ := hpre
    exfalso
    have hnd : (node :: v).Nodup := List.nodup_cons.mpr ⟨hnv, hvnd⟩
    have hsub : ∀ x ∈ node :: v, x ∈ U := by
      intro x hx
      rcases List.mem_cons.mp hx with rfl | hx
      · exact hnU
      · exact hvU x hx
    have := (List.subperm_of_subset hnd hsub).length_le
    simp only [List.length_cons] at this
    omega
  | succ fuel ih =>
    intro node v r hpre
    obtain ⟨hnU, hnv, hvr, hvnd, hrnd, hvU, hfuel⟩ := hpre
    rw [dfsVisit_succ]
    have hvr2 : ∀ x, x ∈ node :: v ↔ x ∈ r ++ [node] := by
      intro x
      rw [List.mem_cons, List.mem_append, List.mem_singleton, hvr x]
      tauto
    have hvnd2 : (node :: v).Nodup := List.nodup_cons.mpr ⟨hnv, hvnd⟩
    have hrnd2 : (r ++ [node]).Nodup := by
      rw [List.nodup_append]
      refine ⟨hrnd, List.nodup_singleton node, ?_⟩
      intro x hx hx2
      rw [List.mem_singleton] at hx2
      subst hx2
      exact hnv ((hvr x).mpr hx)
    have hvU2 : ∀ x ∈ node :: v, x ∈ U := by
      intro x hx
      rcases List.mem_cons.mp hx with rfl | hx
      · exact hnU
      · exact hvU x hx
    have hfuel2 : U.length ≤ fuel + (node :: v).length := by
      simp only [List.length_cons]
      omega
    have hcl2 : ∀ x ∈ node :: v,
        x ∈ v ∨ x = node ∨ ∀ y ∈ nf x, y ∈ node :: v := by
      intro x hx
      rcases List.mem_cons.mp hx with rfl | hx
      · exact Or.inr (Or.inl rfl)
      · exact Or.inl hx
    have hsnd2 : ∀ x ∈ node :: v, x ∈ v ∨ Reach nf node x := by
      intro x hx
      rcases List.mem_cons.mp hx with rfl | hx
      · exact Or.inr Relation.ReflTransGen.refl
      · exact Or.inl hx
    obtain ⟨c1, c2, c3, c4, c5, c6, c7, c8⟩ :=
      dfsFold_spec nf U hU fuel node hnU ih v (nf node)
        (node :: v) (r ++ [node])
        (fun m hm => hm)
        hvr2 hvnd2 hrnd2 hvU2 hfuel2 hcl2 hsnd2
    refine ⟨c1, c2, c3, ?_, ?_, c5, c7, ?_⟩
    · intro x hx
      exact c4 x (List.mem_cons_of_mem node hx)
    · exact c4 node (List.mem_cons_self node v)
    · intro x hx
      rcases c8 x hx with h2 | h2 | h2
      · exact Or.inl h2
      · subst h2
        exact Or.inr (fun y hy => c6 y hy)
      · exact Or.inr h2

/-- Molecule::dfs: empty result for an absent start node, otherwise the
recursive traversal from the start with empty visited set and result. -/
def Molecule.dfs (g : Molecule T) (start : T) : List T :=
  if g.hasAtom start = true then
    (dfsVisit g.neighbors (g.bfsUniv start).length start ([], [])).2
  else []

theorem dfs_absent {g : Molecule T} {start : T} (h : start ∉ g.atoms) :
    g.dfs start = [] := by
  unfold Molecule.dfs
  rw [if_neg]
  simp [Molecule.hasAtom, h]

theorem dfs_spec {g : Molecule T} {start : T} (h : start ∈ g.atoms) :
    (∀ x, x ∈ g.dfs start ↔ Reach g.neighbors start x) ∧
      (g.dfs start).Nodup := by
  unfold Molecule.dfs
  rw [if_pos (by simp [Molecule.hasAtom, h])]
  obtain ⟨o1, o2, o3, o4, o5, o6, o7, o8⟩ :=
    dfsVisit_spec g.neighbors (g.bfsUniv start) (bfsUniv_covers g start)
      (g.bfsUniv start).length start [] []
      ⟨List.mem_cons_self _ _, List.not_mem_nil start, by simp,
        List.nodup_nil, List.nodup_nil, by simp, by omega⟩
  constructor
  · intro x
    rw [← o1 x]
    constructor
    · intro hx
      rcases o7 x hx with h2 | h2
      · simp at h2
      · exact h2
    · intro hx
      induction hx with
      | refl => exact o5
      | tail h1 h2 ih =>
        rename_i b c
        rcases o8 b ih with hb | hb
        · simp at hb
        · exact hb c h2
  · exact o3

/-- C6: for every graph and present start node, bfs and dfs each return a
duplicate-free sequence whose members are exactly the nodes reachable from
the start through the adjacency mapping; in particular the two visit the
same set of nodes. -/
theorem claim_C6_bfs_dfs_reachable (g : Molecule T) (start : T)
    (hstart : start ∈ g.atoms) :
    (∀ x, x ∈ g.bfs start ↔ Reach g.neighbors start x) ∧
    (∀ x, x ∈ g.dfs start ↔ Reach g.neighbors start x) ∧
    (∀ x, x ∈ g.bfs start ↔ x ∈ g.dfs start) ∧
    (g.bfs start).Nodup ∧ (g.dfs start).Nodup := by
  obtain ⟨hb1, hb2⟩ := bfs_spec hstart
  obtain ⟨hd1, hd2⟩ := dfs_spec hstart
  exact ⟨hb1, hd1, fun x => (hb1 x).trans (hd1 x).symm, hb2, hd2⟩

/-- Closed witness for C6: the graph with the single edge (0, 1, SINGLE)
and start node 0. -/
theorem claim_C6_bfs_dfs_reachable_witness :
    (∀ x, x ∈ (emptyGraph.addBond 0 1 BondType.SINGLE).bfs 0 ↔
        Reach (emptyGraph.addBond 0 1 BondType.SINGLE).neighbors 0 x) ∧
    (∀ x, x ∈ (emptyGraph.addBond 0 1 BondType.SINGLE).dfs 0 ↔
        Reach (emptyGraph.addBond 0 1 BondType.SINGLE).neighbors 0 x) ∧
    (∀ x, x ∈ (emptyGraph.addBond 0 1 BondType.SINGLE).bfs 0 ↔
        x ∈ (emptyGraph.addBond 0 1 BondType.SINGLE).dfs 0) ∧
    ((emptyGraph.addBond 0 1 BondType.SINGLE).bfs 0).Nodup ∧
    ((emptyGraph.addBond 0 1 BondType.SINGLE).dfs 0).Nodup :=
  claim_C6_bfs_dfs_reachable (emptyGraph.addBond 0 1 BondType.SINGLE) 0
    (by decide)

/-! Molecule::hasPath: absent endpoints give false, equal present endpoints
give true, otherwise a BFS that stops as soon as the target is dequeued. -/

/-- The loop of Molecule::hasPath: identical queue discipline to bfsRun,
returning true when the target is dequeued. -/
def hasPathLoop (nf : T → List T) (target : T) :
    Nat → List T → List T → Bool
  | 0, _, _ => false
  | _ + 1, [], _ => false
  | fuel + 1, c :: q, v =>
    if c = target then true
    else hasPathLoop nf target fuel (enqueue (nf c) q v).1 (enqueue (nf c) q v).2

/-- Every node already dequeued stays in the dequeue order. -/
theorem bfsRun_r_mono (nf : T → List T) :
    ∀ (fuel : Nat) (q v r : List T) (x : T),
      x ∈ r → x ∈ (bfsRun nf fuel q v r).2.2 := by
  intro fuel
  induction fuel with
  | zero => intro q v r x hx; exact hx
  | succ fuel ih =>
    intro q v r x hx
    match q with
    | [] => exact hx
    | c :: q2 =>
      exact ih (enqueue (nf c) q2 v).1 (enqueue (nf c) q2 v).2 (r ++ [c]) x
        (List.mem_append_left _ hx)

/-- The early-exit loop of hasPath finds the target exactly when the full
BFS dequeues it. -/
theorem hasPathLoop_eq_bfsRun (nf : T → List T) (target : T) :
    ∀ (fuel : Nat) (q v r : List T), target ∉ r →
      (hasPathLoop nf target fuel q v = true ↔
        target ∈ (bfsRun nf fuel q v r).2.2) := by
  intro fuel
  induction fuel with
  | zero =>
    intro q v r hr
    simp only [hasPathLoop]
    exact ⟨fun h => (Bool.false_ne_true h).elim, fun h => absurd h hr⟩
  | succ fuel ih =>
    intro q v r hr
    match q with
    | [] =>
      simp only [hasPathLoop]
      exact ⟨fun h => (Bool.false_ne_true h).elim, fun h => absurd h hr⟩
    | c :: q2 =>
      by_cases hc : c = target
      · subst hc
        rw [show hasPathLoop nf c (fuel + 1) (c :: q2) v = true from by
          rw [hasPathLoop]; simp]
        simp only [true_iff]
        exact bfsRun_r_mono nf fuel _ _ (r ++ [c]) c
          (List.mem_append_right _ (List.mem_singleton.mpr rfl))
      · rw [show hasPathLoop nf target (fuel + 1) (c :: q2) v =
            hasPathLoop nf target fuel (enqueue (nf c) q2 v).1
              (enqueue (nf c) q2 v).2 from by
          rw [hasPathLoop]; simp [hc]]
        rw [show bfsRun nf (fuel + 1) (c :: q2) v r =
            bfsRun nf fuel (enqueue (nf c) q2 v).1 (enqueue (nf c) q2 v).2
              (r ++ [c]) from rfl]
        refine ih _ _ (r ++ [c]) ?_
        intro hmem
        rcases List.mem_append.mp hmem with h | h
        · exact hr h
        · rw [List.mem_singleton] at h
          exact hc h.symm

/-- Molecule::hasPath. -/
def Molecule.hasPath (g : Molecule T) (a b : T) : Bool :=
  if !g.hasAtom a || !g.hasAtom b then false
  else if a = b then true
  else hasPathLoop g.neighbors b (g.bfsFuel a) [a] [a]

/-- C7: hasPath is false when either endpoint is absent (even for equal
endpoints), true for equal present endpoints, and otherwise decides
reachability through the adjacency mapping. -/
theorem claim_C7_hasPath (g : Molecule T) (a b : T) :
    (a ∉ g.atoms ∨ b ∉ g.atoms → g.hasPath a b = false) ∧
    (a ∈ g.atoms → b ∈ g.atoms → a = b → g.hasPath a b = true) ∧
    (a ∈ g.atoms → b ∈ g.atoms → a ≠ b →
      (g.hasPath a b = true ↔ Reach g.neighbors a b)) := by
  refine ⟨?_, ?_, ?_⟩
  · intro h
    unfold Molecule.hasPath
    rw [if_pos]
    rcases h with h | h <;> simp [Molecule.hasAtom, h]
  · intro ha hb hab
    unfold Molecule.hasPath
    rw [if_neg (by simp [Molecule.hasAtom, ha, hb]), if_pos hab]
  · intro ha hb hab
    unfold Molecule.hasPath
    rw [if_neg (by simp [Molecule.hasAtom, ha, hb]), if_neg hab]
    obtain ⟨hq, hmem, hnd⟩ := bfsRun_start_spec g.neighbors (g.bfsUniv a) a
      (bfsUniv_covers g a) (List.mem_cons_self _ _)
    rw [hasPathLoop_eq_bfsRun g.neighbors b (g.bfsFuel a) [a] [a] []
      (List.not_mem_nil b)]
    exact hmem b

/-- Closed witness for C7: the graph with the single edge (0, 1, SINGLE). -/
theorem claim_C7_hasPath_witness :
    (((0 : Nat) ∉ (emptyGraph.addBond 0 1 BondType.SINGLE).atoms ∨
        (2 : Nat) ∉ (emptyGraph.addBond 0 1 BondType.SINGLE).atoms →
      (emptyGraph.addBond 0 1 BondType.SINGLE).hasPath 0 2 = false)) ∧
    ((0 : Nat) ∈ (emptyGraph.addBond 0 1 BondType.SINGLE).atoms →
      (2 : Nat) ∈ (emptyGraph.addBond 0 1 BondType.SINGLE).atoms →
      (0 : Nat) = 2 →
      (emptyGraph.addBond 0 1 BondType.SINGLE).hasPath 0 2 = true) ∧
    ((0 : Nat) ∈ (emptyGraph.addBond 0 1 BondType.SINGLE).atoms →
      (2 : Nat) ∈ (emptyGraph.addBond 0 1 BondType.SINGLE).atoms →
      (0 : Nat) ≠ 2 →
      ((emptyGraph.addBond 0 1 BondType.SINGLE).hasPath 0 2 = true ↔
        Reach (emptyGraph.addBond 0 1 BondType.SINGLE).neighbors 0 2)) :=
  claim_C7_hasPath (emptyGraph.addBond 0 1 BondType.SINGLE) 0 2

/-! Cycle detection.  Molecule::hasCycle runs hasCycleHelper from every
not-yet-visited atom with the default-constructed value T() as the root
parent marker.  hasCycleHelper marks the node visited, records parent[node],
and scans neighbors: an unvisited neighbor is recursed into (propagating an
early true), and a visited neighbor different from parent[node] reports a
cycle.  The early returns of the C++ code are modelled by freezing the
state once the flag is true. -/

/-- Molecule::hasCycleHelper.  State is (visited, parent map, found). -/
def hcVisit [Inhabited T] (nf : T → List T) :
    Nat → T → T → List T × List (T × T) × Bool →
      List T × List (T × T) × Bool
  | 0, _, _, s => s
  | fuel + 1, node, par, s =>
    (nf node).foldl
      (fun s2 n =>
        match s2 with
        | (v2, p2, true) => (v2, p2, true)
        | (v2, p2, false) =>
          if n ∈ v2 then
            if n ≠ (alook p2 node).getD default then (v2, p2, true)
            else (v2, p2, false)
          else hcVisit nf fuel n node (v2, p2, false))
      (node :: s.1, (node, par) :: s.2.1, s.2.2)

/-- The loop of Molecule::hasCycle over the atom set, sharing visited and
parent across components and starting each root with parent T(). -/
def hcOuter [Inhabited T] (nf : T → List T) (fuel : Nat) :
    List T → List T → List (T × T) → Bool
  | [], _, _ => false
  | a :: as, v, p =>
    if a ∈ v then hcOuter nf fuel as v p
    else
      match hcVisit nf fuel a default (v, p, false) with
      | (v2, p2, found) => if found then true else hcOuter nf fuel as v2 p2

/-- Molecule::hasCycle. -/
def Molecule.hasCycle [Inhabited T] (g : Molecule T) : Bool :=
  hcOuter g.neighbors (g.atoms.length + g.adjValues.length + 1) g.atoms [] []

/-- Molecule::isConnected: vacuously true when empty, else compares the
size of the BFS tree from the first atom with the atom count. -/
def Molecule.isConnected (g : Molecule T) : Bool :=
  match g.atoms with
  | [] => true
  | a :: _ => decide ((g.bfs a).length = g.atoms.length)

/-! The four standalone analyzers operate on a bare adjacency mapping. -/

/-- Neighbor lookup in a bare mapping: the stored list, or empty when the
key is absent (graph.find guarded iteration). -/
def gnf (graph : List (T × List T)) (x : T) : List T :=
  (alook graph x).getD []

/-- All successor values stored in a bare mapping. -/
def gvalues (graph : List (T × List T)) : List T :=
  graph.foldr (fun p acc => p.2 ++ acc) []

/-- A fuel bound large enough for a single BFS over the mapping from one
start node. -/
def spFuel (graph : List (T × List T)) : Nat :=
  ((gvalues graph).length + 2) * ((gvalues graph).length + 2)

/-- The whole node universe of a bare mapping: its keys and all stored
successor values. -/
def gUniv (graph : List (T × List T)) : List T :=
  graph.map Prod.fst ++ gvalues graph

/-- A fuel bound large enough for BFS runs whose visited set accumulates
across the outer key iteration. -/
def ccFuel (graph : List (T × List T)) : Nat :=
  ((gUniv graph).length + 2) * ((gUniv graph).length + 2)

/-- The neighbor scan of graphHasPath: the target is recognized at enqueue
time (none means found); otherwise unvisited neighbors are enqueued. -/
def ghpScan (target : T) : List T → List T → List T →
    Option (List T × List T)
  | [], q, v => some (q, v)
  | n :: ns, q, v =>
    if n = target then none
    else if n ∈ v then ghpScan target ns q v
    else ghpScan target ns (q ++ [n]) (n :: v)

/-- The BFS loop of graphHasPath. -/
def ghpLoop (nf : T → List T) (target : T) : Nat → List T → List T → Bool
  | 0, _, _ => false
  | _ + 1, [], _ => false
  | fuel + 1, c :: q, v =>
    match ghpScan target (nf c) q v with
    | none => true
    | some (q2, v2) => ghpLoop nf target fuel q2 v2

/-- graphHasPath: false for an absent start key, true for equal start and
end, otherwise a BFS that stops when the end appears as a neighbor. -/
def graphHasPath (graph : List (T × List T)) (s e : T) : Bool :=
  if (alook graph s).isSome then
    if s = e then true
    else ghpLoop (gnf graph) e (spFuel graph) [s] [s]
  else false

/-- The neighbor scan of graphShortestPath: unvisited neighbors are marked,
enqueued, and given the current node as parent. -/
def spEnqueue (c : T) : List T → List T → List T → List (T × T) →
    List T × List T × List (T × T)
  | [], q, v, p => (q, v, p)
  | n :: ns, q, v, p =>
    if n ∈ v then spEnqueue c ns q v p
    else spEnqueue c ns (q ++ [n]) (n :: v) ((n, c) :: p)

/-- Path reconstruction of graphShortestPath: walk parent pointers from the
end back to the start, builds the path in start-to-end order. -/
def walkParents [Inhabited T] (p : List (T × T)) (start : T) :
    Nat → T → List T → List T
  | 0, _, acc => acc
  | fuel + 1, node, acc =>
    if node = start then node :: acc
    else walkParents p start fuel ((alook p node).getD default) (node :: acc)

/-- The BFS loop of graphShortestPath with parent recording and early exit
at the target, followed by path reconstruction. -/
def spLoop [Inhabited T] (nf : T → List T) (start target : T) :
    Nat → List T → List T → List (T × T) → List T
  | 0, _, _, _ => []
  | _ + 1, [], _, _ => []
  | fuel + 1, c :: q, v, p =>
    if c = target then walkParents p start (p.length + 1) target []
    else
      spLoop nf start target fuel (spEnqueue c (nf c) q v p).1
        (spEnqueue c (nf c) q v p).2.1 (spEnqueue c (nf c) q v p).2.2

/-- graphShortestPath: empty for an absent start key; otherwise BFS with a
parent-pointer tree, parent[start] = start, and reconstruction from the
end once it is dequeued. -/
def graphShortestPath [Inhabited T] (graph : List (T × List T))
    (s e : T) : List T :=
  if (alook graph s).isSome then
    spLoop (gnf graph) s e (spFuel graph) [s] [s] [(s, s)]
  else []

/-- The marking BFS of graphCountComponents. -/
def ccLoop (nf : T → List T) : Nat → List T → List T → List T
  | 0, _, v => v
  | _ + 1, [], v => v
  | fuel + 1, c :: q, v =>
    ccLoop nf fuel (enqueue (nf c) q v).1 (enqueue (nf c) q v).2

/-- The key iteration of graphCountComponents: one count per key that is
not already visited, sharing the visited set across BFS runs. -/
def ccOuter (nf : T → List T) (fuel : Nat) : List T → List T → Nat
  | [], _ => 0
  | k :: ks, v =>
    if k ∈ v then ccOuter nf fuel ks v
    else ccOuter nf fuel ks (ccLoop nf fuel [k] (k :: v)) + 1

/-- graphCountComponents. -/
def graphCountComponents (graph : List (T × List T)) : Nat :=
  ccOuter (gnf graph) (ccFuel graph) (graph.map Prod.fst) []

/-- The neighbor scan of graphIsBipartite: uncolored neighbors get the
complementary color and are enqueued; a neighbor colored like the current
node reports non-bipartiteness (none). -/
def bipScan (ccur : Nat) : List T → List T → List (T × Nat) →
    Option (List T × List (T × Nat))
  | [], q, col => some (q, col)
  | n :: ns, q, col =>
    match alook col n with
    | none => bipScan ccur ns (q ++ [n]) ((n, 1 - ccur) :: col)
    | some cn => if cn = ccur then none else bipScan ccur ns q col

/-- The BFS loop of graphIsBipartite. -/
def bipLoop (nf : T → List T) : Nat → List T → List (T × Nat) →
    Option (List (T × Nat))
  | 0, _, col => some col
  | _ + 1, [], col => some col
  | fuel + 1, c :: q, col =>
    match bipScan ((alook col c).getD 0) (nf c) q col with
    | none => none
    | some (q2, col2) => bipLoop nf fuel q2 col2

/-- The key iteration of graphIsBipartite: each uncolored key starts a new
2-coloring BFS with color 0. -/
def bipOuter (nf : T → List T) (fuel : Nat) :
    List T → List (T × Nat) → Bool
  | [], _ => true
  | k :: ks, col =>
    match alook col k with
    | some _ => bipOuter nf fuel ks col
    | none =>
      match bipLoop nf fuel [k] ((k, 0) :: col) with
      | none => false
      | some col2 => bipOuter nf fuel ks col2

/-- graphIsBipartite. -/
def graphIsBipartite (graph : List (T × List T)) : Bool :=
  bipOuter (gnf graph) (ccFuel graph) (graph.map Prod.fst) []

/-- C2 is a code bug: hasCycle has no explicit self-loop check; it relies on
comparing a visited neighbor against parent[node], and the root parent is
the default-constructed T().  A self-loop at the default value is therefore
missed (first two conjuncts, ARROW and SINGLE), while the same self-loop at
any other value is reported (third conjunct). -/
theorem claim_C2_selfloop_default_missed :
    (emptyGraph.addBond (0 : Nat) 0 BondType.ARROW).hasCycle = false ∧
    (emptyGraph.addBond (0 : Nat) 0 BondType.SINGLE).hasCycle = false ∧
    (emptyGraph.addBond (1 : Nat) 1 BondType.ARROW).hasCycle = true := by
  refine ⟨?_, ?_, ?_⟩ <;> decide

/-- C8: the traversal and analyzer operations are total functions in this
model, and absent nodes, missing paths and empty mappings resolve to empty
sequences or false, never an error: neighbors, bfs and dfs of an absent
node are empty, hasPath with an absent endpoint is false, and all four
mapping analyzers degrade to their empty or neutral value on the empty
mapping. -/
theorem claim_C8_total_defaults [Inhabited T] (g : Molecule T) (n x : T)
    (hg : Wf g) (hn : n ∉ g.atoms) :
    g.neighbors n = [] ∧ g.bfs n = [] ∧ g.dfs n = [] ∧
    g.hasPath n x = false ∧ g.hasPath x n = false ∧
    (∀ s e : T, graphHasPath ([] : List (T × List T)) s e = false) ∧
    (∀ s e : T, graphShortestPath ([] : List (T × List T)) s e = []) ∧
    graphCountComponents ([] : List (T × List T)) = 0 ∧
    graphIsBipartite ([] : List (T × List T)) = true := by
  have hadj : alook g.adjacency n = none := by
    rcases hs : alook g.adjacency n with _ | v
    · rfl
    · exact absurd (hg.adjAtom n (by simp [hs])) hn
  refine ⟨?_, bfs_absent hn, dfs_absent hn, ?_, ?_, ?_, ?_, rfl, rfl⟩
  · unfold Molecule.neighbors
    rw [hadj]
    rfl
  · unfold Molecule.hasPath
    rw [if_pos]
    simp [Molecule.hasAtom, hn]
  · unfold Molecule.hasPath
    rw [if_pos]
    simp [Molecule.hasAtom, hn]
  · intro s e
    unfold graphHasPath
    rw [if_neg]
    simp [alook]
  · intro s e
    unfold graphShortestPath
    rw [if_neg]
    simp [alook]

/-- Closed witness for C8: the graph with edge (0, 1, SINGLE), absent node 5. -/
theorem claim_C8_total_defaults_witness :
    (emptyGraph.addBond 0 1 BondType.SINGLE).neighbors 5 = [] ∧
    (emptyGraph.addBond 0 1 BondType.SINGLE).bfs 5 = [] ∧
    (emptyGraph.addBond 0 1 BondType.SINGLE).dfs 5 = [] ∧
    (emptyGraph.addBond 0 1 BondType.SINGLE).hasPath 5 0 = false ∧
    (emptyGraph.addBond 0 1 BondType.SINGLE).hasPath 0 5 = false ∧
    (∀ s e : Nat, graphHasPath ([] : List (Nat × List Nat)) s e = false) ∧
    (∀ s e : Nat, graphShortestPath ([] : List (Nat × List Nat)) s e = []) ∧
    graphCountComponents ([] : List (Nat × List Nat)) = 0 ∧
    graphIsBipartite ([] : List (Nat × List Nat)) = true :=
  claim_C8_total_defaults (emptyGraph.addBond 0 1 BondType.SINGLE) 5 0
    (wf_addBond wf_emptyGraph 0 1 BondType.SINGLE) (by decide)

/-! Component counting.  graphCountComponents starts one BFS per key that an
earlier BFS has not already visited and counts these launches.  The shared
visited set is, at every stage, the union of the reachable sets of the keys
processed so far; the count therefore equals the number of keys that are not
reachable from any earlier key. -/

/-- A BFS-loop invariant for a pre-populated visited set (as used by the
component counter): the queue is inside the visited set and every visited
node is either still queued or fully explored. -/
theorem bfsRun_closure_inv (nf : T → List T) (P : T → Prop)
    (hP : ∀ a b, P a → b ∈ nf a → P b) :
    ∀ (fuel : Nat) (q v r : List T),
      (∀ x ∈ q, x ∈ v) →
      (∀ x ∈ v, x ∈ q ∨ ∀ y ∈ nf x, y ∈ v) →
      (∀ x ∈ v, P x) →
      v.Nodup →
      (∀ x ∈ v, x ∈ (bfsRun nf fuel q v r).2.1) ∧
      (∀ x ∈ (bfsRun nf fuel q v r).2.1, P x) ∧
      (∀ x ∈ (bfsRun nf fuel q v r).2.1, x ∈ (bfsRun nf fuel q v r).1 ∨
          ∀ y ∈ nf x, y ∈ (bfsRun nf fuel q v r).2.1) ∧
      (∀ x ∈ (bfsRun nf fuel q v r).1, x ∈ (bfsRun nf fuel q v r).2.1) ∧
      (bfsRun nf fuel q v r).2.1.Nodup := by
  intro fuel
  induction fuel with
  | zero =>
    intro q v r hqv hcl hsound hvnd
    exact ⟨fun x hx => hx, hsound, hcl, hqv, hvnd⟩
  | succ fuel ih =>
    intro q v r hqv hcl hsound hvnd
    match q with
    | [] =>
      exact ⟨fun x hx => hx, hsound,
        fun x hx => (hcl x hx).imp id id, hqv, hvnd⟩
    | c :: q2 =>
      have hcv : c ∈ v := hqv c (List.mem_cons_self c q2)
      rw [show bfsRun nf (fuel + 1) (c :: q2) v r =
          bfsRun nf fuel (enqueue (nf c) q2 v).1 (enqueue (nf c) q2 v).2
            (r ++ [c]) from rfl]
      have hqv2 : ∀ x ∈ (enqueue (nf c) q2 v).1, x ∈ (enqueue (nf c) q2 v).2 := by
        intro x hx
        rw [enqueue_fst_mem] at hx
        rw [enqueue_snd_mem]
        rcases hx with hx | ⟨hx, _⟩
        · exact Or.inl (hqv x (List.mem_cons_of_mem c hx))
        · exact Or.inr hx
      have hcl2 : ∀ x ∈ (enqueue (nf c) q2 v).2,
          x ∈ (enqueue (nf c) q2 v).1 ∨ ∀ y ∈ nf x, y ∈ (enqueue (nf c) q2 v).2 := by
        intro x hx
        rw [enqueue_snd_mem] at hx
        rcases hx with hx | hx
        · rcases hcl x hx with hx2 | hx2
          · rcases List.mem_cons.mp hx2 with rfl | hx2
            · refine Or.inr ?_
              intro y hy
              rw [enqueue_snd_mem]
              exact Or.inr hy
            · refine Or.inl ?_
              rw [enqueue_fst_mem]
              exact Or.inl hx2
          · refine Or.inr ?_
            intro y hy
            rw [enqueue_snd_mem]
            exact Or.inl (hx2 y hy)
        · by_cases hxv : x ∈ v
          · rcases hcl x hxv with hx2 | hx2
            · rcases List.mem_cons.mp hx2 with rfl | hx2
              · refine Or.inr ?_
                intro y hy
                rw [enqueue_snd_mem]
                exact Or.inr hy
              · refine Or.inl ?_
                rw [enqueue_fst_mem]
                exact Or.inl hx2
            · refine Or.inr ?_
              intro y hy
              rw [enqueue_snd_mem]
              exact Or.inl (hx2 y hy)
          · refine Or.inl ?_
            rw [enqueue_fst_mem]
            exact Or.inr ⟨hx, hxv⟩
      have hsound2 : ∀ x ∈ (enqueue (nf c) q2 v).2, P x := by
        intro x hx
        rw [enqueue_snd_mem] at hx
        rcases hx with hx | hx
        · exact hsound x hx
        · exact hP c x (hsound c hcv) hx
      obtain ⟨c1, c2, c3, c4, c5⟩ := ih (enqueue (nf c) q2 v).1
        (enqueue (nf c) q2 v).2 (r ++ [c]) hqv2 hcl2 hsound2
        (enqueue_snd_nodup _ _ _ hvnd)
      refine ⟨?_, c2, c3, c4, c5⟩
      intro x hx
      exact c1 x ((enqueue_snd_mem (nf c) q2 v x).mpr (Or.inl hx))

/-- The marking loop of the component counter is the visited component of
the full BFS loop. -/
theorem ccLoop_eq_bfsRun (nf : T → List T) :
    ∀ (fuel : Nat) (q v r : List T),
      ccLoop nf fuel q v = (bfsRun nf fuel q v r).2.1 := by
  intro fuel
  induction fuel with
  | zero => intro q v r; rfl
  | succ fuel ih =>
    intro q v r
    match q with
    | [] => rfl
    | c :: q2 =>
      exact ih (enqueue (nf c) q2 v).1 (enqueue (nf c) q2 v).2 (r ++ [c])

/-- Reachability stays inside a universe that contains the source and all
neighbor values. -/
theorem reach_mem_univ {nf : T → List T} {U : List T}
    (hU : ∀ a, ∀ b ∈ nf a, b ∈ U) {k x : T} (hk : k ∈ U)
    (h : Reach nf k x) : x ∈ U := by
  induction h with
  | refl => exact hk
  | tail h1 h2 ih => exact hU _ _ h2

/-- The set of nodes reachable from a node, computed by a fully drained
BFS; the spec-side reference point for the component-count theorem. -/
def reachSet (nf : T → List T) (U : List T) (k : T) : List T :=
  (bfsRun nf ((U.length + 1) * (U.length + 1)) [k] [k] []).2.2

theorem reachSet_spec {nf : T → List T} {U : List T}
    (hU : ∀ a, ∀ b ∈ nf a, b ∈ U) {k : T} (hk : k ∈ U) :
    ∀ x, x ∈ reachSet nf U k ↔ Reach nf k x :=
  (bfsRun_start_spec nf U k hU hk).2.1

/-- The number of mapping keys, in order, that are not reachable from any
earlier key; the corrected value of graphCountComponents. -/
def freshCount (nf : T → List T) (U : List T) : List T → List T → Nat
  | [], _ => 0
  | k :: ks, es =>
    if es.any (fun j => decide (k ∈ reachSet nf U j)) then
      freshCount nf U ks (es ++ [k])
    else freshCount nf U ks (es ++ [k]) + 1

theorem ccOuter_eq_freshCount (nf : T → List T) (U : List T)
    (hU : ∀ a, ∀ b ∈ nf a, b ∈ U) :
    ∀ (ks es v : List T),
      (∀ k ∈ ks, k ∈ U) → (∀ j ∈ es, j ∈ U) →
      v.Nodup → (∀ x ∈ v, x ∈ U) →
      (∀ x ∈ v, ∀ y ∈ nf x, y ∈ v) →
      (∀ x, x ∈ v ↔ ∃ j ∈ es, Reach nf j x) →
      ccOuter nf ((U.length + 2) * (U.length + 2)) ks v =
        freshCount nf U ks es := by
  intro ks
  induction ks with
  | nil => intro es v _ _ _ _ _ _; rfl
  | cons k ks ih =>
    intro es v hks hes hvnd hvU hvcl hviff
    have hkU : k ∈ U := hks k (List.mem_cons_self k ks)
    have hany : (es.any fun j => decide (k ∈ reachSet nf U j)) = true ↔
        ∃ j ∈ es, Reach nf j k := by
      rw [List.any_eq_true]
      constructor
      · rintro ⟨j, hj, hdec⟩
        rw [decide_eq_true_iff] at hdec
        exact ⟨j, hj, (reachSet_spec hU (hes j hj) k).mp hdec⟩
      · rintro ⟨j, hj, hr⟩
        exact ⟨j, hj, decide_eq_true ((reachSet_spec hU (hes j hj) k).mpr hr)⟩
    have hks2 : ∀ m ∈ ks, m ∈ U := fun m hm => hks m (List.mem_cons_of_mem k hm)
    have hes2 : ∀ j ∈ es ++ [k], j ∈ U := by
      intro j hj
      rcases List.mem_append.mp hj with hj | hj
      · exact hes j hj
      · rw [List.mem_singleton] at hj
        subst hj
        exact hkU
    by_cases hkv : k ∈ v
    · rw [show ccOuter nf ((U.length + 2) * (U.length + 2)) (k :: ks) v =
          ccOuter nf ((U.length + 2) * (U.length + 2)) ks v from by
        rw [ccOuter, if_pos hkv]]
      rw [show freshCount nf U (k :: ks) es = freshCount nf U ks (es ++ [k]) from by
        rw [freshCount, if_pos (hany.mpr ((hviff k).mp hkv))]]
      refine ih (es ++ [k]) v hks2 hes2 hvnd hvU hvcl ?_
      intro x
      rw [hviff x]
      constructor
      · rintro ⟨j, hj, hr⟩
        exact ⟨j, List.mem_append_left _ hj, hr⟩
      · rintro ⟨j, hj, hr⟩
        rcases List.mem_append.mp hj with hj | hj
        · exact ⟨j, hj, hr⟩
        · rw [List.mem_singleton] at hj
          subst hj
          rw [hviff j] at hkv
          obtain ⟨j2, hj2, hr2⟩ := hkv
          exact ⟨j2, hj2, hr2.trans hr⟩
    · have hkv2 : ¬ (es.any fun j => decide (k ∈ reachSet nf U j)) = true := by
        intro h
        exact hkv ((hviff k).mpr (hany.mp h))
      rw [show ccOuter nf ((U.length + 2) * (U.length + 2)) (k :: ks) v =
          ccOuter nf ((U.length + 2) * (U.length + 2)) ks
            (ccLoop nf ((U.length + 2) * (U.length + 2)) [k] (k :: v)) + 1 from by
        rw [ccOuter, if_neg hkv]]
      rw [show freshCount nf U (k :: ks) es =
          freshCount nf U ks (es ++ [k]) + 1 from by
        rw [freshCount, if_neg hkv2]]
      rw [ccLoop_eq_bfsRun nf _ [k] (k :: v) []]
      have hknv : (k :: v).Nodup := List.nodup_cons.mpr ⟨hkv, hvnd⟩
      have hkvU : ∀ x ∈ k :: v, x ∈ U := by
        intro x hx
        rcases List.mem_cons.mp hx with rfl | hx
        · exact hkU
        · exact hvU x hx
      have hqv0 : ∀ x ∈ [k], x ∈ k :: v := by
        intro x hx
        rw [List.mem_singleton] at hx
        rw [hx]
        exact List.mem_cons_self k v
      have hdrain : (bfsRun nf ((U.length + 2) * (U.length + 2)) [k]
          (k :: v) []).1 = [] := by
        refine bfsRun_empties nf U hU _ [k] (k :: v) [] hknv hkvU hqv0 ?_
        have hle : (U.length + 1 - (k :: v).length) * (U.length + 1) ≤
            (U.length + 1) * (U.length + 1) :=
          Nat.mul_le_mul_right _ (by omega)
        have hexp : (U.length + 2) * (U.length + 2) =
            (U.length + 1) * (U.length + 1) + (2 * U.length + 3) := by ring
        have h1 : ([k] : List T).length = 1 := rfl
        rw [h1]
        omega
      obtain ⟨c1, c2, c3, c4, c5⟩ :=
        bfsRun_closure_inv nf (fun x => x ∈ v ∨ Reach nf k x)
          (by
            intro a b ha hb
            rcases ha with ha | ha
            · exact Or.inl (hvcl a ha b hb)
            · exact Or.inr (ha.tail hb))
          ((U.length + 2) * (U.length + 2)) [k] (k :: v) [] hqv0
          (by
            intro x hx
            rcases List.mem_cons.mp hx with rfl | hx
            · exact Or.inl (List.mem_singleton.mpr rfl)
            · exact Or.inr (fun y hy => List.mem_cons_of_mem k (hvcl x hx y hy)))
          (by
            intro x hx
            rcases List.mem_cons.mp hx with rfl | hx
            · exact Or.inr Relation.ReflTransGen.refl
            · exact Or.inl hx)
          hknv
      rw [hdrain] at c3 c4
      refine congrArg (· + 1) (ih (es ++ [k]) _ hks2 hes2 c5 ?_ ?_ ?_)
      · intro x hx
        rcases c2 x hx with hx2 | hx2
        · exact hvU x hx2
        · exact reach_mem_univ hU hkU hx2
      · intro x hx y hy
        rcases c3 x hx with hx2 | hx2
        · simp at hx2
        · exact hx2 y hy
      · intro x
        constructor
        · intro hx
          rcases c2 x hx with hx2 | hx2
          · obtain ⟨j, hj, hr⟩ := (hviff x).mp hx2
            exact ⟨j, List.mem_append_left _ hj, hr⟩
          · exact ⟨k, List.mem_append_right _ (List.mem_singleton.mpr rfl), hx2⟩
        · rintro ⟨j, hj, hr⟩
          rcases List.mem_append.mp hj with hj | hj
          · exact c1 x (List.mem_cons_of_mem k ((hviff x).mpr ⟨j, hj, hr⟩))
          · rw [List.mem_singleton] at hj
            subst hj
            induction hr with
            | refl => exact c1 j (List.mem_cons_self j v)
            | @tail b c h1 h2 ihh =>
              rcases c3 b ihh with hb | hb
              · simp at hb
              · exact hb c h2

theorem gnf_mem_univ (graph : List (T × List T)) :
    ∀ a, ∀ b ∈ gnf graph a, b ∈ gUniv graph := by
  intro a b hb
  unfold gnf at hb
  rcases hs : alook graph a with _ | l
  · rw [hs] at hb
    simp at hb
  · rw [hs] at hb
    exact List.mem_append_right _ (mem_foldr_append (alook_mem _ _ _ hs) hb)

/-- Undirected one-step adjacency over a bare mapping; the glossary defines
a component through undirected reachability. -/
def usym (nf : T → List T) (a b : T) : Prop := b ∈ nf a ∨ a ∈ nf b

/-- Undirected reachability over a bare mapping. -/
def UReach (nf : T → List T) : T → T → Prop := Relation.ReflTransGen (usym nf)

/-- C5 counterexample: in the mapping with keys 0 and 1 both pointing to
the non-key node 2, the two keys lie in a single undirected component
(spanned by the keys, joined through 2), yet graphCountComponents counts
them separately and returns 2, not 1. -/
theorem claim_C5_counterexample :
    graphCountComponents ([(0, [2]), (1, [2])] : List (Nat × List Nat)) = 2 ∧
    UReach (gnf ([(0, [2]), (1, [2])] : List (Nat × List Nat))) 0 1 ∧
    (0 : Nat) ≠ 1 := by
  refine ⟨by decide, ?_, by decide⟩
  have h1 : usym (gnf ([(0, [2]), (1, [2])] : List (Nat × List Nat))) 0 2 :=
    Or.inl (by decide)
  have h2 : usym (gnf ([(0, [2]), (1, [2])] : List (Nat × List Nat))) 2 1 :=
    Or.inr (by decide)
  exact Relation.ReflTransGen.tail
    (Relation.ReflTransGen.tail Relation.ReflTransGen.refl h1) h2

/-- C5 (amended): graphCountComponents increments once per mapping key that
is not already visited, so it equals the number of keys that are not
reachable, along directed neighbor-list edges, from any earlier key
(freshCount); nodes appearing only inside neighbor lists never start a
component of their own, and keys of one undirected component may be counted
separately.  On a mapping containing two disjoint two-node chains it
returns 2. -/
theorem claim_C5_count_components (graph : List (T × List T)) :
    graphCountComponents graph =
      freshCount (gnf graph) (gUniv graph) (graph.map Prod.fst) [] ∧
    (∀ j x, j ∈ gUniv graph →
      (x ∈ reachSet (gnf graph) (gUniv graph) j ↔ Reach (gnf graph) j x)) ∧
    graphCountComponents
      ([(0, [1]), (1, [0]), (2, [3]), (3, [2])] : List (Nat × List Nat)) = 2 := by
  refine ⟨?_, ?_, by decide⟩
  · unfold graphCountComponents ccFuel
    refine ccOuter_eq_freshCount (gnf graph) (gUniv graph)
      (gnf_mem_univ graph) (graph.map Prod.fst) [] []
      (fun k hk => List.mem_append_left _ hk)
      (by intro j hj; simp at hj)
      List.nodup_nil
      (by intro x hx; simp at hx)
      (by intro x hx; simp at hx)
      (by intro x; simp)
  · intro j x hj
    exact reachSet_spec (gnf_mem_univ graph) hj x

/-- Closed witness for the amended C5 at the counterexample mapping. -/
theorem claim_C5_count_components_witness :
    graphCountComponents ([(0, [2]), (1, [2])] : List (Nat × List Nat)) =
      freshCount (gnf ([(0, [2]), (1, [2])] : List (Nat × List Nat)))
        (gUniv ([(0, [2]), (1, [2])] : List (Nat × List Nat)))
        (([(0, [2]), (1, [2])] : List (Nat × List Nat)).map Prod.fst) [] ∧
    (∀ j x, j ∈ gUniv ([(0, [2]), (1, [2])] : List (Nat × List Nat)) →
      (x ∈ reachSet (gnf ([(0, [2]), (1, [2])] : List (Nat × List Nat)))
          (gUniv ([(0, [2]), (1, [2])] : List (Nat × List Nat))) j ↔
        Reach (gnf ([(0, [2]), (1, [2])] : List (Nat × List Nat))) j x)) ∧
    graphCountComponents
      ([(0, [1]), (1, [0]), (2, [3]), (3, [2])] : List (Nat × List Nat)) = 2 :=
  claim_C5_count_components ([(0, [2]), (1, [2])] : List (Nat × List Nat))

/-! Shortest paths.  graphShortestPath runs a BFS with a parent-pointer
tree and reconstructs the path by walking parents from the end node.  The
correctness proof uses path lengths: PathN counts edges, MinD is the graph
distance, and the loop invariant keeps the queue sorted by distance with a
spread of at most one, which makes every recorded parent edge decrease the
distance by exactly one. -/

/-- A walk of exactly n edges from a to b. -/
def PathN (nf : T → List T) : Nat → T → T → Prop
  | 0, a, b => a = b
  | n + 1, a, c => ∃ b ∈ nf a, PathN nf n b c

theorem pathN_reach {nf : T → List T} :
    ∀ {n : Nat} {a b : T}, PathN nf n a b → Reach nf a b := by
  intro n
  induction n with
  | zero =>
    intro a b h
    rw [show a = b from h]
    exact Relation.ReflTransGen.refl
  | succ n ih =>
    intro a c h
    obtain ⟨b, hb, h2⟩ := h
    exact Relation.ReflTransGen.head hb (ih h2)

theorem pathN_snoc {nf : T → List T} :
    ∀ {n : Nat} {a b c : T}, PathN nf n a b → c ∈ nf b →
      PathN nf (n + 1) a c := by
  intro n
  induction n with
  | zero =>
    intro a b c h hc
    rw [show a = b from h]
    exact ⟨c, hc, rfl⟩
  | succ n ih =>
    intro a b c h hc
    obtain ⟨m, hm, h2⟩ := h
    exact ⟨m, hm, ih h2 hc⟩

theorem reach_pathN {nf : T → List T} {a b : T} (h : Reach nf a b) :
    ∃ n, PathN nf n a b := by
  induction h with
  | refl => exact ⟨0, rfl⟩
  | @tail m c h1 h2 ih =>
    obtain ⟨n, hn⟩ := ih
    exact ⟨n + 1, pathN_snoc hn h2⟩

theorem pathN_snoc_decomp {nf : T → List T} :
    ∀ {n : Nat} {a c : T}, PathN nf (n + 1) a c →
      ∃ b, PathN nf n a b ∧ c ∈ nf b := by
  intro n
  induction n with
  | zero =>
    intro a c h
    obtain ⟨b, hb, h2⟩ := h
    rw [show b = c from h2] at hb
    exact ⟨a, rfl, hb⟩
  | succ n ih =>
    intro a c h
    obtain ⟨m, hm, h2⟩ := h
    obtain ⟨b, hb1, hb2⟩ := ih h2
    exact ⟨b, ⟨m, hm, hb1⟩, hb2⟩

/-- The graph distance: d is the length of a shortest walk from s to z. -/
def MinD (nf : T → List T) (s z : T) (d : Nat) : Prop :=
  PathN nf d s z ∧ ∀ m, PathN nf m s z → d ≤ m

theorem minD_unique {nf : T → List T} {s z : T} {d d2 : Nat}
    (h : MinD nf s z d) (h2 : MinD nf s z d2) : d = d2 :=
  Nat.le_antisymm (h.2 d2 h2.1) (h2.2 d h.1)

theorem minD_exists {nf : T → List T} {s z : T} (h : Reach nf s z) :
    ∃ d, MinD nf s z d := by
  obtain ⟨n, hn⟩ := reach_pathN h
  haveI : DecidablePred fun m => PathN nf m s z := Classical.decPred _
  exact ⟨Nat.find ⟨n, hn⟩, Nat.find_spec (⟨n, hn⟩ : ∃ m, PathN nf m s z),
    fun m hm => Nat.find_min' _ hm⟩

theorem minD_self (nf : T → List T) (s : T) : MinD nf s s 0 :=
  ⟨rfl, fun m _ => Nat.zero_le m⟩

theorem minD_zero {nf : T → List T} {s z : T} (h : MinD nf s z 0) : s = z := h.1

theorem minD_reach {nf : T → List T} {s z : T} {d : Nat} (h : MinD nf s z d) :
    Reach nf s z := pathN_reach h.1

theorem minD_succ_decomp {nf : T → List T} {s z : T} {d : Nat}
    (h : MinD nf s z (d + 1)) : ∃ y, MinD nf s y d ∧ z ∈ nf y := by
  obtain ⟨y, hy1, hy2⟩ := pathN_snoc_decomp h.1
  refine ⟨y, ⟨hy1, ?_⟩, hy2⟩
  intro m hm
  have := h.2 (m + 1) (pathN_snoc hm hy2)
  omega

theorem minD_le_succ {nf : T → List T} {s a z : T} {da dz : Nat}
    (ha : MinD nf s a da) (hz : MinD nf s z dz) (hadj : z ∈ nf a) :
    dz ≤ da + 1 :=
  hz.2 (da + 1) (pathN_snoc ha.1 hadj)

theorem minD_pos_ne {nf : T → List T} {s z : T} {d : Nat}
    (h : MinD nf s z (d + 1)) : z ≠ s := by
  intro hz
  subst hz
  have := h.2 0 rfl
  omega

/-- A nonempty chain list is a walk of length edges. -/
theorem chain_to_pathN {nf : T → List T} :
    ∀ (l : List T) (a b : T), l.head? = some a → l.getLast? = some b →
      List.Chain' (adjRel nf) l → PathN nf (l.length - 1) a b := by
  intro l
  induction l with
  | nil => intro a b h; cases h
  | cons x rest ih =>
    intro a b hh hl hc
    rw [List.head?_cons, Option.some_inj] at hh
    subst hh
    match rest with
    | [] =>
      rw [List.getLast?_singleton, Option.some_inj] at hl
      subst hl
      rfl
    | y :: rest2 =>
      rw [List.getLast?_cons_cons] at hl
      rw [List.chain'_cons] at hc
      have := ih y b (List.head?_cons) hl hc.2
      simp only [List.length_cons, Nat.add_sub_cancel] at this ⊢
      exact ⟨y, hc.1, this⟩

theorem sp_fst_mem (c : T) (ns : List T) :
    ∀ (q v : List T) (p : List (T × T)) (x : T),
      x ∈ (spEnqueue c ns q v p).1 ↔ x ∈ q ∨ (x ∈ ns ∧ x ∉ v) := by
  induction ns with
  | nil => intro q v p x; simp [spEnqueue]
  | cons n ns ih =>
    intro q v p x
    by_cases hn : n ∈ v
    · rw [spEnqueue, if_pos hn, ih, List.mem_cons]
      constructor
      · tauto
      · rintro (h | ⟨(rfl | h1), h2⟩) <;> tauto
    · rw [spEnqueue, if_neg hn, ih, List.mem_cons, List.mem_cons,
        List.mem_append, List.mem_singleton]
      by_cases hx : x = n
      · subst hx
        tauto
      · tauto

theorem sp_snd_mem (c : T) (ns : List T) :
    ∀ (q v : List T) (p : List (T × T)) (x : T),
      x ∈ (spEnqueue c ns q v p).2.1 ↔ x ∈ v ∨ x ∈ ns := by
  induction ns with
  | nil => intro q v p x; simp [spEnqueue]
  | cons n ns ih =>
    intro q v p x
    by_cases hn : n ∈ v
    · rw [spEnqueue, if_pos hn, ih, List.mem_cons]
      constructor
      · tauto
      · rintro (h | rfl | h) <;> tauto
    · rw [spEnqueue, if_neg hn, ih, List.mem_cons, List.mem_cons]
      tauto

theorem sp_len (c : T) (ns : List T) :
    ∀ (q v : List T) (p : List (T × T)),
      (spEnqueue c ns q v p).2.1.length + q.length =
        v.length + (spEnqueue c ns q v p).1.length := by
  induction ns with
  | nil => intro q v p; simp [spEnqueue]
  | cons n ns ih =>
    intro q v p
    by_cases hn : n ∈ v
    · rw [spEnqueue, if_pos hn]
      exact ih q v p
    · rw [spEnqueue, if_neg hn]
      have := ih (q ++ [n]) (n :: v) ((n, c) :: p)
      simp only [List.length_append, List.length_cons, List.length_nil] at this
      omega

theorem sp_fst_len_ge (c : T) (ns : List T) :
    ∀ (q v : List T) (p : List (T × T)),
      q.length ≤ (spEnqueue c ns q v p).1.length := by
  induction ns with
  | nil => intro q v p; simp [spEnqueue]
  | cons n ns ih =>
    intro q v p
    by_cases hn : n ∈ v
    · rw [spEnqueue, if_pos hn]
      exact ih q v p
    · rw [spEnqueue, if_neg hn]
      calc q.length ≤ (q ++ [n]).length := by simp
        _ ≤ _ := ih (q ++ [n]) (n :: v) ((n, c) :: p)

theorem sp_snd_nodup (c : T) (ns : List T) :
    ∀ (q v : List T) (p : List (T × T)), v.Nodup →
      (spEnqueue c ns q v p).2.1.Nodup := by
  induction ns with
  | nil => intro q v p h; exact h
  | cons n ns ih =>
    intro q v p h
    by_cases hn : n ∈ v
    · rw [spEnqueue, if_pos hn]
      exact ih q v p h
    · rw [spEnqueue, if_neg hn]
      exact ih (q ++ [n]) (n :: v) ((n, c) :: p) (List.nodup_cons.mpr ⟨hn, h⟩)

theorem sp_p_pres (c : T) (ns : List T) :
    ∀ (q v : List T) (p : List (T × T)),
      (∀ x, (alook p x).isSome → x ∈ v) →
      ∀ x ∈ v, alook (spEnqueue c ns q v p).2.2 x = alook p x := by
  induction ns with
  | nil => intro q v p _ x _; rfl
  | cons n ns ih =>
    intro q v p hdom x hx
    by_cases hn : n ∈ v
    · rw [spEnqueue, if_pos hn]
      exact ih q v p hdom x hx
    · rw [spEnqueue, if_neg hn]
      have hdom2 : ∀ y, (alook ((n, c) :: p) y).isSome → y ∈ n :: v := by
        intro y hy
        by_cases hyn : n = y
        · subst hyn
          exact List.mem_cons_self n v
        · rw [show alook ((n, c) :: p) y = alook p y from by
            rw [alook, if_neg hyn]] at hy
          exact List.mem_cons_of_mem n (hdom y hy)
      have := ih (q ++ [n]) (n :: v) ((n, c) :: p) hdom2 x
        (List.mem_cons_of_mem n hx)
      rw [this, alook, if_neg (fun h : n = x => hn (h ▸ hx))]

theorem sp_p_dom (c : T) (ns : List T) :
    ∀ (q v : List T) (p : List (T × T)),
      (∀ x, (alook p x).isSome → x ∈ v) →
      ∀ x, (alook (spEnqueue c ns q v p).2.2 x).isSome →
        x ∈ (spEnqueue c ns q v p).2.1 := by
  induction ns with
  | nil => intro q v p hdom x hx; exact hdom x hx
  | cons n ns ih =>
    intro q v p hdom x hx
    by_cases hn : n ∈ v
    · rw [spEnqueue, if_pos hn] at hx ⊢
      exact ih q v p hdom x hx
    · rw [spEnqueue, if_neg hn] at hx ⊢
      refine ih (q ++ [n]) (n :: v) ((n, c) :: p) ?_ x hx
      intro y hy
      by_cases hyn : n = y
      · subst hyn
        exact List.mem_cons_self n v
      · rw [show alook ((n, c) :: p) y = alook p y from by
          rw [alook, if_neg hyn]] at hy
        exact List.mem_cons_of_mem n (hdom y hy)

theorem sp_p_all (c : T) (ns : List T) :
    ∀ (q v : List T) (p : List (T × T)),
      (∀ x ∈ v, (alook p x).isSome) →
      ∀ x ∈ (spEnqueue c ns q v p).2.1,
        (alook (spEnqueue c ns q v p).2.2 x).isSome := by
  induction ns with
  | nil => intro q v p hall x hx; exact hall x hx
  | cons n ns ih =>
    intro q v p hall x hx
    by_cases hn : n ∈ v
    · rw [spEnqueue, if_pos hn] at hx ⊢
      exact ih q v p hall x hx
    · rw [spEnqueue, if_neg hn] at hx ⊢
      refine ih (q ++ [n]) (n :: v) ((n, c) :: p) ?_ x hx
      intro y hy
      rcases List.mem_cons.mp hy with rfl | hy
      · rw [alook, if_pos rfl]
        rfl
      · rw [alook]
        by_cases hyn : n = y
        · rw [if_pos hyn]
          rfl
        · rw [if_neg hyn]
          exact hall y hy

theorem sp_p_new (c : T) (ns : List T) :
    ∀ (q v : List T) (p : List (T × T)),
      (∀ x, (alook p x).isSome → x ∈ v) →
      ∀ x, x ∉ v → x ∈ (spEnqueue c ns q v p).2.1 →
        alook (spEnqueue c ns q v p).2.2 x = some c ∧ x ∈ ns := by
  induction ns with
  | nil =>
    intro q v p _ x hxv hx
    exact absurd hx hxv
  | cons n ns ih =>
    intro q v p hdom x hxv hx
    by_cases hn : n ∈ v
    · rw [spEnqueue, if_pos hn] at hx ⊢
      obtain ⟨h1, h2⟩ := ih q v p hdom x hxv hx
      exact ⟨h1, List.mem_cons_of_mem n h2⟩
    · rw [spEnqueue, if_neg hn] at hx ⊢
      have hdom2 : ∀ y, (alook ((n, c) :: p) y).isSome → y ∈ n :: v := by
        intro y hy
        by_cases hyn : n = y
        · subst hyn
          exact List.mem_cons_self n v
        · rw [show alook ((n, c) :: p) y = alook p y from by
            rw [alook, if_neg hyn]] at hy
          exact List.mem_cons_of_mem n (hdom y hy)
      by_cases hxn : x = n
      · subst hxn
        refine ⟨?_, List.mem_cons_self x ns⟩
        rw [sp_p_pres c ns (q ++ [x]) (x :: v) ((x, c) :: p) hdom2 x
          (List.mem_cons_self x v)]
        rw [alook, if_pos rfl]
      · have hxv2 : x ∉ n :: v := by
          intro h
          rcases List.mem_cons.mp h with h | h
          · exact hxn h
          · exact hxv h
        obtain ⟨h1, h2⟩ := ih (q ++ [n]) (n :: v) ((n, c) :: p) hdom2 x hxv2 hx
        exact ⟨h1, List.mem_cons_of_mem n h2⟩

/-- The parent-tree facts maintained by the shortest-path BFS: parents are
recorded exactly for visited nodes, the start points to itself, and every
other recorded parent is an adjacent predecessor at distance exactly one
less. -/
structure SpPar (nf : T → List T) (s : T) (v : List T) (p : List (T × T)) :
    Prop where
  dom : ∀ x, (alook p x).isSome → x ∈ v
  all : ∀ x ∈ v, (alook p x).isSome
  pstart : alook p s = some s
  edge : ∀ x y, alook p x = some y → x ≠ s →
    x ∈ nf y ∧ y ∈ v ∧
      ∀ dx dy, MinD nf s x dx → MinD nf s y dy → dx = dy + 1
  sound : ∀ x ∈ v, Reach nf s x
  vnd : v.Nodup

/-- Walking the parent pointers from a visited node meets, at each step, a
node one closer to the start; the visited chain built this way has d + 1
distinct nodes, which bounds the distance by the visited count. -/
theorem sp_chain_bound {nf : T → List T} {s : T} {v : List T}
    {p : List (T × T)} (hp : SpPar nf s v p) :
    ∀ (d : Nat) (z : T), z ∈ v → MinD nf s z d →
      ∃ chain : List T, chain.Nodup ∧ (∀ x ∈ chain, x ∈ v) ∧
        (∀ x ∈ chain, ∃ dx, MinD nf s x dx ∧ dx ≤ d) ∧
        chain.length = d + 1 := by
  intro d
  induction d with
  | zero =>
    intro z hz hd
    refine ⟨[z], List.nodup_singleton z, ?_, ?_, rfl⟩
    · intro x hx
      rw [List.mem_singleton] at hx
      subst hx
      exact hz
    · intro x hx
      rw [List.mem_singleton] at hx
      subst hx
      exact ⟨0, hd, Nat.le_refl 0⟩
  | succ d ih =>
    intro z hz hd
    have hzs : z ≠ s := minD_pos_ne hd
    obtain ⟨y, hy⟩ := Option.isSome_iff_exists.mp (hp.all z hz)
    obtain ⟨hadj, hyv, hdist⟩ := hp.edge z y hy hzs
    obtain ⟨dy, hdy⟩ := minD_exists (hp.sound y hyv)
    have hdyd : dy = d := by
      have := hdist (d + 1) dy hd hdy
      omega
    subst hdyd
    obtain ⟨chain, hnd, hv, hds, hlen⟩ := ih y hyv hdy
    refine ⟨z :: chain, ?_, ?_, ?_, by rw [List.length_cons, hlen]⟩
    · refine List.nodup_cons.mpr ⟨?_, hnd⟩
      intro hzc
      obtain ⟨dx, hdx, hdxle⟩ := hds z hzc
      have := minD_unique hd hdx
      omega
    · intro x hx
      rcases List.mem_cons.mp hx with rfl | hx
      · exact hz
      · exact hv x hx
    · intro x hx
      rcases List.mem_cons.mp hx with rfl | hx
      · exact ⟨dy + 1, hd, Nat.le_refl _⟩
      · obtain ⟨dx, hdx, hdxle⟩ := hds x hx
        exact ⟨dx, hdx, Nat.le_succ_of_le hdxle⟩

/-- The graph distance of any visited node is below the visited count. -/
theorem sp_dist_lt_v {nf : T → List T} {s : T} {v : List T}
    {p : List (T × T)} (hp : SpPar nf s v p) {z : T} {d : Nat}
    (hz : z ∈ v) (hd : MinD nf s z d) : d < v.length := by
  obtain ⟨chain, hnd, hv, _, hlen⟩ := sp_chain_bound hp d z hz hd
  have := (List.subperm_of_subset hnd hv).length_le
  omega

/-- Every visited node has a parent entry, so the visited count is at most
the entry count. -/
theorem sp_v_le_p {v : List T} {p : List (T × T)} (hvnd : v.Nodup)
    (hall : ∀ x ∈ v, (alook p x).isSome) : v.length ≤ p.length := by
  have hsub : ∀ x ∈ v, x ∈ p.map Prod.fst := by
    intro x hx
    exact (alook_isSome_iff p x).mp (hall x hx)
  have := (List.subperm_of_subset hvnd hsub).length_le
  simpa using this

/-- Correctness of the parent walk: from a visited node at distance d, with
more than d fuel, it returns a start-to-node chain of length d + 1 in front
of the accumulator. -/
theorem walkParents_spec [Inhabited T] {nf : T → List T} {s : T}
    {v : List T} {p : List (T × T)} (hp : SpPar nf s v p) :
    ∀ (d : Nat) (z : T) (acc : List T) (wfuel : Nat), z ∈ v →
      MinD nf s z d → d < wfuel →
      ∃ l : List T, walkParents p s wfuel z acc = l ++ acc ∧
        l.head? = some s ∧ l.getLast? = some z ∧
        List.Chain' (adjRel nf) l ∧ l.length = d + 1 := by
  intro d
  induction d with
  | zero =>
    intro z acc wfuel hz hd hfuel
    have hsz : s = z := minD_zero hd
    subst hsz
    obtain ⟨w2, rfl⟩ : ∃ w2, wfuel = w2 + 1 := ⟨wfuel - 1, by omega⟩
    refine ⟨[s], ?_, rfl, rfl, List.chain'_singleton s, rfl⟩
    rw [walkParents, if_pos rfl]
    rfl
  | succ d ih =>
    intro z acc wfuel hz hd hfuel
    have hzs : z ≠ s := minD_pos_ne hd
    obtain ⟨w2, rfl⟩ : ∃ w2, wfuel = w2 + 1 := ⟨wfuel - 1, by omega⟩
    obtain ⟨y, hy⟩ := Option.isSome_iff_exists.mp (hp.all z hz)
    obtain ⟨hadj, hyv, hdist⟩ := hp.edge z y hy hzs
    obtain ⟨dy, hdy⟩ := minD_exists (hp.sound y hyv)
    have hdyd : dy = d := by
      have := hdist (d + 1) dy hd hdy
      omega
    subst hdyd
    obtain ⟨l, hl, hh, hlast, hchain, hlen⟩ :=
      ih y (z :: acc) w2 hyv hdy (by omega)
    refine ⟨l ++ [z], ?_, ?_, ?_, ?_, ?_⟩
    · rw [walkParents, if_neg hzs,
        show (alook p z).getD default = y from by rw [hy]; rfl, hl,
        List.append_assoc]
      rfl
    · match l, hlen with
      | x :: tl, _ =>
        rw [List.head?_cons] at hh
        rw [List.cons_append, List.head?_cons]
        exact hh
    · rw [List.getLast?_append_cons]
      rfl
    · rw [List.chain'_append]
      refine ⟨hchain, List.chain'_singleton z, ?_⟩
      intro x hx y2 hy2
      rw [hlast, Option.mem_def, Option.some_inj] at hx
      rw [List.head?_cons, Option.mem_def, Option.some_inj] at hy2
      subst hx
      subst hy2
      exact hadj
    · rw [List.length_append, hlen, List.length_singleton]

theorem reach_mem_closed {nf : T → List T} {v : List T} {s : T}
    (hs : s ∈ v) (hcl : ∀ x ∈ v, ∀ y ∈ nf x, y ∈ v) {z : T}
    (h : Reach nf s z) : z ∈ v := by
  induction h with
  | refl => exact hs
  | @tail b c h1 h2 ih => exact hcl b ih c h2

theorem forall2_append {R : T → Nat → Prop} :
    ∀ {l1 : List T} {ds1 : List Nat} {l2 : List T} {ds2 : List Nat},
      List.Forall₂ R l1 ds1 → List.Forall₂ R l2 ds2 →
      List.Forall₂ R (l1 ++ l2) (ds1 ++ ds2) := by
  intro l1 ds1 l2 ds2 h1 h2
  induction h1 with
  | nil => exact h2
  | cons ha hrest ih => exact List.Forall₂.cons ha ih

theorem forall2_cons_left {R : T → Nat → Prop} {a : T} {l : List T}
    {ds : List Nat} (h : List.Forall₂ R (a :: l) ds) :
    ∃ d ds2, ds = d :: ds2 ∧ R a d ∧ List.Forall₂ R l ds2 := by
  cases h with
  | cons h1 h2 => exact ⟨_, _, rfl, h1, h2⟩

theorem forall2_mem_left {R : T → Nat → Prop} :
    ∀ {l : List T} {ds : List Nat}, List.Forall₂ R l ds →
      ∀ x ∈ l, ∃ d ∈ ds, R x d := by
  intro l
  induction l with
  | nil => intro ds h x hx; simp at hx
  | cons a l ih =>
    intro ds h x hx
    obtain ⟨d, ds2, rfl, h1, h2⟩ := forall2_cons_left h
    rcases List.mem_cons.mp hx with rfl | hx
    · exact ⟨d, List.mem_cons_self d ds2, h1⟩
    · obtain ⟨d2, hd2, hr⟩ := ih h2 x hx
      exact ⟨d2, List.mem_cons_of_mem d hd2, hr⟩

theorem forall2_replicate {R : T → Nat → Prop} {d : Nat} :
    ∀ {l : List T}, (∀ x ∈ l, R x d) →
      List.Forall₂ R l (List.replicate l.length d) := by
  intro l
  induction l with
  | nil => intro _; exact List.Forall₂.nil
  | cons a l ih =>
    intro h
    rw [List.length_cons, List.replicate_succ]
    exact List.Forall₂.cons (h a (List.mem_cons_self a l))
      (ih fun x hx => h x (List.mem_cons_of_mem a hx))

theorem pairwise_le_replicate (n d : Nat) :
    (List.replicate n d).Pairwise (· ≤ ·) := by
  induction n with
  | zero => exact List.Pairwise.nil
  | succ n ih =>
    rw [List.replicate_succ, List.pairwise_cons]
    refine ⟨?_, ih⟩
    intro x hx
    rw [List.eq_of_mem_replicate hx]

theorem sp_fst_decomp (c : T) (ns : List T) :
    ∀ (q v : List T) (p : List (T × T)),
      ∃ new, (spEnqueue c ns q v p).1 = q ++ new ∧
        ∀ x ∈ new, x ∈ ns ∧ x ∉ v := by
  induction ns with
  | nil =>
    intro q v p
    exact ⟨[], by simp [spEnqueue], by simp⟩
  | cons n ns ih =>
    intro q v p
    by_cases hn : n ∈ v
    · rw [spEnqueue, if_pos hn]
      obtain ⟨new, heq, hprops⟩ := ih q v p
      refine ⟨new, heq, ?_⟩
      intro x hx
      obtain ⟨h1, h2⟩ := hprops x hx
      exact ⟨List.mem_cons_of_mem n h1, h2⟩
    · rw [spEnqueue, if_neg hn]
      obtain ⟨new, heq, hprops⟩ := ih (q ++ [n]) (n :: v) ((n, c) :: p)
      refine ⟨n :: new, ?_, ?_⟩
      · rw [heq, List.append_assoc]
        rfl
      · intro x hx
        rcases List.mem_cons.mp hx with rfl | hx
        · exact ⟨List.mem_cons_self x ns, hn⟩
        · obtain ⟨h1, h2⟩ := hprops x hx
          exact ⟨List.mem_cons_of_mem n h1,
            fun hv => h2 (List.mem_cons_of_mem n hv)⟩

/-- The loop invariant of the shortest-path BFS. -/
structure SpInv (nf : T → List T) (s t : T) (U : List T)
    (q v : List T) (p : List (T × T)) : Prop where
  qv : ∀ x ∈ q, x ∈ v
  vU : ∀ x ∈ v, x ∈ U
  sv : s ∈ v
  closure : ∀ x ∈ v, x ∈ q ∨ ∀ y ∈ nf x, y ∈ v
  par : SpPar nf s v p
  tq : t ∈ v → t ∈ q
  dists : ∃ ds : List Nat, List.Forall₂ (MinD nf s) q ds ∧
    ds.Pairwise (· ≤ ·) ∧
    (∀ d0, ds.head? = some d0 → ∀ d ∈ ds, d ≤ d0 + 1)
  frontier : ∀ c0 q2, q = c0 :: q2 → ∀ d0, MinD nf s c0 d0 →
    ∀ z dz, MinD nf s z dz → dz ≤ d0 → z ∈ v

/-- Full correctness of the shortest-path loop: with the invariant and
enough fuel, it returns the empty sequence when the target is unreachable,
and a start-to-target chain of minimal length when it is reachable. -/
theorem spLoop_spec [Inhabited T] (nf : T → List T) (s t : T) (U : List T)
    (hU : ∀ a, ∀ b ∈ nf a, b ∈ U) :
    ∀ (fuel : Nat) (q v : List T) (p : List (T × T)),
      SpInv nf s t U q v p →
      (U.length + 1 - v.length) * (U.length + 1) + q.length ≤ fuel →
      (¬ Reach nf s t → spLoop nf s t fuel q v p = []) ∧
      (∀ dt, MinD nf s t dt →
        ∃ l, spLoop nf s t fuel q v p = l ∧ l.head? = some s ∧
          l.getLast? = some t ∧ List.Chain' (adjRel nf) l ∧
          l.length = dt + 1) := by
  intro fuel
  induction fuel with
  | zero =>
    intro q v p inv hfuel
    exfalso
    have hv : v.length ≤ U.length :=
      (List.subperm_of_subset inv.par.vnd inv.vU).length_le
    have : 0 < (U.length + 1 - v.length) * (U.length + 1) := by
      apply Nat.mul_pos <;> omega
    omega
  | succ fuel ih =>
    intro q v p inv hfuel
    match q with
    | [] =>
      have hclosed : ∀ x ∈ v, ∀ y ∈ nf x, y ∈ v := by
        intro x hx
        rcases inv.closure x hx with h | h
        · simp at h
        · exact h
      constructor
      · intro _
        rfl
      · intro dt hdt
        exfalso
        have htv : t ∈ v := reach_mem_closed inv.sv hclosed (minD_reach hdt)
        have := inv.tq htv
        simp at this
    | c :: q2 =>
      have hcv : c ∈ v := inv.qv c (List.mem_cons_self c q2)
      obtain ⟨ds, hf, hsort, hspread⟩ := inv.dists
      obtain ⟨d0, ds2, rfl, hd0, hf2⟩ := forall2_cons_left hf
      by_cases hct : c = t
      · subst hct
        constructor
        · intro hnr
          exact absurd (inv.par.sound c hcv) hnr
        · intro dt hdt
          have hdlt : dt < p.length + 1 := by
            have h1 := sp_dist_lt_v inv.par hcv hdt
            have h2 := sp_v_le_p inv.par.vnd inv.par.all
            omega
          obtain ⟨l, hl, hh, hlast, hchain, hlen⟩ :=
            walkParents_spec inv.par dt c [] (p.length + 1) hcv hdt hdlt
          rw [List.append_nil] at hl
          refine ⟨l, ?_, hh, hlast, hchain, hlen⟩
          rw [spLoop, if_pos rfl]
          exact hl
      · -- one BFS step: freshly discovered nodes are at distance d0 + 1
        have hfresh : ∀ x, x ∈ nf c → x ∉ v → MinD nf s x (d0 + 1) := by
          intro x hxc hxv
          obtain ⟨dx, hdx⟩ :=
            minD_exists ((inv.par.sound c hcv).tail hxc)
          have h1 : dx ≤ d0 + 1 := minD_le_succ hd0 hdx hxc
          have h2 : ¬ dx ≤ d0 := fun h =>
            hxv (inv.frontier c q2 rfl d0 hd0 x dx hdx h)
          have h3 : dx = d0 + 1 := by omega
          rw [← h3]
          exact hdx
        obtain ⟨new, hqeq, hnew⟩ := sp_fst_decomp c (nf c) q2 v p
        have hnewd : ∀ x ∈ new, MinD nf s x (d0 + 1) := by
          intro x hx
          obtain ⟨h1, h2⟩ := hnew x hx
          exact hfresh x h1 h2
        have hd0le : ∀ d ∈ ds2, d0 ≤ d := (List.pairwise_cons.mp hsort).1
        have hd0le2 : ∀ d ∈ ds2, d ≤ d0 + 1 := by
          intro d hd
          exact hspread d0 rfl d (List.mem_cons_of_mem d0 hd)
        have hf3 : List.Forall₂ (MinD nf s) (spEnqueue c (nf c) q2 v p).1
            (ds2 ++ List.replicate new.length (d0 + 1)) := by
          rw [hqeq]
          exact forall2_append hf2 (forall2_replicate hnewd)
        have hpw3 : (ds2 ++ List.replicate new.length (d0 + 1)).Pairwise
            (· ≤ ·) := by
          rw [List.pairwise_append]
          refine ⟨(List.pairwise_cons.mp hsort).2,
            pairwise_le_replicate _ _, ?_⟩
          intro a ha b hb
          rw [List.eq_of_mem_replicate hb]
          exact hd0le2 a ha
        have hds3le : ∀ d ∈ ds2 ++ List.replicate new.length (d0 + 1),
            d ≤ d0 + 1 := by
          intro d hd
          rcases List.mem_append.mp hd with hd | hd
          · exact hd0le2 d hd
          · rw [List.eq_of_mem_replicate hd]
        have hinv2 : SpInv nf s t U (spEnqueue c (nf c) q2 v p).1
            (spEnqueue c (nf c) q2 v p).2.1 (spEnqueue c (nf c) q2 v p).2.2 := by
          refine ⟨?_, ?_, ?_, ?_, ?_, ?_, ?_, ?_⟩
          · intro x hx
            rw [sp_fst_mem] at hx
            rw [sp_snd_mem]
            rcases hx with hx | ⟨hx, _⟩
            · exact Or.inl (inv.qv x (List.mem_cons_of_mem c hx))
            · exact Or.inr hx
          · intro x hx
            rw [sp_snd_mem] at hx
            rcases hx with hx | hx
            · exact inv.vU x hx
            · exact hU c x hx
          · rw [sp_snd_mem]
            exact Or.inl inv.sv
          · intro x hx
            rw [sp_snd_mem] at hx
            have hstep : x ∈ v → (x ∈ (spEnqueue c (nf c) q2 v p).1 ∨
                ∀ y ∈ nf x, y ∈ (spEnqueue c (nf c) q2 v p).2.1) := by
              intro hx2
              rcases inv.closure x hx2 with hx3 | hx3
              · rcases List.mem_cons.mp hx3 with rfl | hx3
                · refine Or.inr ?_
                  intro y hy
                  rw [sp_snd_mem]
                  exact Or.inr hy
                · refine Or.inl ?_
                  rw [sp_fst_mem]
                  exact Or.inl hx3
              · refine Or.inr ?_
                intro y hy
                rw [sp_snd_mem]
                exact Or.inl (hx3 y hy)
            rcases hx with hx | hx
            · exact hstep hx
            · by_cases hxv : x ∈ v
              · exact hstep hxv
              · refine Or.inl ?_
                rw [sp_fst_mem]
                exact Or.inr ⟨hx, hxv⟩
          · refine ⟨?_, ?_, ?_, ?_, ?_, ?_⟩
            · exact sp_p_dom c (nf c) q2 v p inv.par.dom
            · exact sp_p_all c (nf c) q2 v p inv.par.all
            · rw [sp_p_pres c (nf c) q2 v p inv.par.dom s inv.sv]
              exact inv.par.pstart
            · intro x y hxy hxs
              by_cases hxv : x ∈ v
              · rw [sp_p_pres c (nf c) q2 v p inv.par.dom x hxv] at hxy
                obtain ⟨h1, h2, h3⟩ := inv.par.edge x y hxy hxs
                refine ⟨h1, ?_, h3⟩
                rw [sp_snd_mem]
                exact Or.inl h2
              · have hxv2 : x ∈ (spEnqueue c (nf c) q2 v p).2.1 :=
                  sp_p_dom c (nf c) q2 v p inv.par.dom x (by rw [hxy]; rfl)
                obtain ⟨h1, h2⟩ :=
                  sp_p_new c (nf c) q2 v p inv.par.dom x hxv hxv2
                rw [hxy, Option.some_inj] at h1
                subst h1
                refine ⟨h2, ?_, ?_⟩
                · rw [sp_snd_mem]
                  exact Or.inl hcv
                · intro dx dy hdx hdy
                  have hy0 : dy = d0 := minD_unique hdy hd0
                  have hx0 : dx = d0 + 1 := minD_unique hdx (hfresh x h2 hxv)
                  omega
            · intro x hx
              rw [sp_snd_mem] at hx
              rcases hx with hx | hx
              · exact inv.par.sound x hx
              · exact (inv.par.sound c hcv).tail hx
            · exact sp_snd_nodup c (nf c) q2 v p inv.par.vnd
          · intro ht
            rw [sp_snd_mem] at ht
            rw [sp_fst_mem]
            have hcase : t ∈ v → t ∈ q2 := by
              intro htv
              have := inv.tq htv
              rcases List.mem_cons.mp this with h | h
              · exact absurd h.symm hct
              · exact h
            rcases ht with ht | ht
            · exact Or.inl (hcase ht)
            · by_cases htv : t ∈ v
              · exact Or.inl (hcase htv)
              · exact Or.inr ⟨ht, htv⟩
          · refine ⟨ds2 ++ List.replicate new.length (d0 + 1), hf3, hpw3, ?_⟩
            intro e0 he0 d hd
            have hd1 : d ≤ d0 + 1 := hds3le d hd
            have he0ge : d0 ≤ e0 := by
              match ds2, he0, hd0le with
              | [], he0, _ =>
                rw [List.nil_append] at he0
                match new, he0 with
                | [], he0 => exact absurd he0 (by simp)
                | x :: new2, he0 =>
                  rw [List.length_cons, List.replicate_succ, List.head?_cons,
                    Option.some_inj] at he0
                  omega
              | e :: ds3, he0, hd0le =>
                rw [List.cons_append, List.head?_cons, Option.some_inj] at he0
                subst he0
                exact hd0le e (List.mem_cons_self e ds3)
            omega
          · intro c0 q2b hq2b e0 he0 z dz hdz hdzle
            rw [sp_snd_mem]
            obtain ⟨e0b, ds3b, hdseq, he0b, hf4⟩ :=
              forall2_cons_left (hq2b ▸ hf3)
            have he0eq : e0 = e0b := minD_unique he0 he0b
            subst he0eq
            have he0r : e0 ≤ d0 + 1 := by
              have : e0 ∈ ds2 ++ List.replicate new.length (d0 + 1) := by
                rw [hdseq]
                exact List.mem_cons_self e0 ds3b
              exact hds3le e0 this
            by_cases hzd : dz ≤ d0
            · exact Or.inl (inv.frontier c q2 rfl d0 hd0 z dz hdz hzd)
            · have hdz1 : dz = d0 + 1 := by omega
              subst hdz1
              have he00 : e0 = d0 + 1 := by omega
              subst he00
              obtain ⟨y, hdy, hzy⟩ := minD_succ_decomp hdz
              have hyv : y ∈ v :=
                inv.frontier c q2 rfl d0 hd0 y d0 hdy (Nat.le_refl d0)
              by_cases hyc : y = c
              · subst hyc
                exact Or.inr hzy
              · have hge : ∀ d ∈ ds2 ++ List.replicate new.length (d0 + 1),
                    d0 + 1 ≤ d := by
                  intro d hd
                  rw [hdseq] at hd
                  rcases List.mem_cons.mp hd with rfl | hd
                  · exact Nat.le_refl _
                  · have hpw4 := hdseq ▸ hpw3
                    exact (List.pairwise_cons.mp hpw4).1 d hd
                have hynq : y ∉ (spEnqueue c (nf c) q2 v p).1 := by
                  intro hyq
                  obtain ⟨d, hdm, hr⟩ := forall2_mem_left hf3 y hyq
                  have hd00 : d = d0 := (minD_unique hr hdy)
                  have := hge d hdm
                  omega
                have hcl := inv.closure y hyv
                rcases hcl with hcl | hcl
                · rcases List.mem_cons.mp hcl with rfl | hcl
                  · exact absurd rfl hyc
                  · exfalso
                    apply hynq
                    rw [hqeq]
                    exact List.mem_append_left _ hcl
                · exact Or.inl (hcl z hzy)
        have hmeas : (U.length + 1 - (spEnqueue c (nf c) q2 v p).2.1.length) *
            (U.length + 1) + (spEnqueue c (nf c) q2 v p).1.length ≤ fuel := by
          have hvlen : v.length ≤ U.length :=
            (List.subperm_of_subset inv.par.vnd inv.vU).length_le
          have hv2len : (spEnqueue c (nf c) q2 v p).2.1.length ≤ U.length :=
            (List.subperm_of_subset hinv2.par.vnd hinv2.vU).length_le
          have hlen := sp_len c (nf c) q2 v p
          have hqge := sp_fst_len_ge c (nf c) q2 v p
          have hexp : (U.length + 1 - v.length) * (U.length + 1) =
              (U.length + 1 - (spEnqueue c (nf c) q2 v p).2.1.length) *
                (U.length + 1) +
              ((spEnqueue c (nf c) q2 v p).2.1.length - v.length) *
                (U.length + 1) := by
            rw [← Nat.add_mul]
            congr 1
            omega
          have hk2 : (spEnqueue c (nf c) q2 v p).2.1.length - v.length ≤
              ((spEnqueue c (nf c) q2 v p).2.1.length - v.length) *
                (U.length + 1) := by
            calc (spEnqueue c (nf c) q2 v p).2.1.length - v.length
                = ((spEnqueue c (nf c) q2 v p).2.1.length - v.length) * 1 :=
                  (Nat.mul_one _).symm
              _ ≤ _ := Nat.mul_le_mul_left _ (by omega)
          simp only [List.length_cons] at hfuel
          omega
        obtain ⟨ihA, ihB⟩ := ih (spEnqueue c (nf c) q2 v p).1
          (spEnqueue c (nf c) q2 v p).2.1 (spEnqueue c (nf c) q2 v p).2.2
          hinv2 hmeas
        constructor
        · intro hnr
          rw [spLoop, if_neg hct]
          exact ihA hnr
        · intro dt hdt
          obtain ⟨l, hl, h2, h3, h4, h5⟩ := ihB dt hdt
          refine ⟨l, ?_, h2, h3, h4, h5⟩
          rw [spLoop, if_neg hct]
          exact hl

theorem gnf_mem_cons_values (graph : List (T × List T)) (s : T) :
    ∀ a, ∀ b ∈ gnf graph a, b ∈ s :: gvalues graph := by
  intro a b hb
  unfold gnf at hb
  rcases hs : alook graph a with _ | l
  · rw [hs] at hb
    simp at hb
  · rw [hs] at hb
    exact List.mem_cons_of_mem s (mem_foldr_append (alook_mem _ _ _ hs) hb)

/-- The invariant holds for the initial shortest-path state: queue [s],
visited [s], parent map [(s, s)]. -/
theorem spInv_init (nf : T → List T) (s t : T) (U : List T)
    (hsU : s ∈ U) : SpInv nf s t U [s] [s] [(s, s)] := by
  have halook : ∀ x, alook [(s, s)] x = if s = x then some s else none := by
    intro x
    simp [alook]
  refine ⟨?_, ?_, ?_, ?_, ⟨?_, ?_, ?_, ?_, ?_, ?_⟩, ?_, ?_, ?_⟩
  · intro x hx
    exact hx
  · intro x hx
    rw [List.mem_singleton] at hx
    rw [hx]
    exact hsU
  · exact List.mem_singleton.mpr rfl
  · intro x hx
    exact Or.inl hx
  · intro x hx
    rw [halook x] at hx
    by_cases hsx : s = x
    · rw [hsx]
      exact List.mem_singleton.mpr rfl
    · rw [if_neg hsx] at hx
      exact absurd hx (by simp)
  · intro x hx
    rw [List.mem_singleton] at hx
    rw [halook x, if_pos hx.symm]
    rfl
  · rw [halook s, if_pos rfl]
  · intro x y hxy hxs
    rw [halook x] at hxy
    by_cases hsx : s = x
    · exact absurd hsx.symm hxs
    · rw [if_neg hsx] at hxy
      exact absurd hxy (by simp)
  · intro x hx
    rw [List.mem_singleton] at hx
    rw [hx]
    exact Relation.ReflTransGen.refl
  · exact List.nodup_singleton s
  · intro h
    exact h
  · refine ⟨[0], ?_, List.pairwise_singleton _ _, ?_⟩
    · exact List.Forall₂.cons (minD_self nf s) List.Forall₂.nil
    · intro d0 hd0 d hd
      rw [List.mem_singleton] at hd
      rw [hd]
      omega
  · intro c0 q2 hq d0 hd0 z dz hdz hle
    injection hq with h1 h2
    subst h1
    have hd00 : d0 = 0 := minD_unique hd0 (minD_self nf s)
    subst hd00
    have hdz0 : dz = 0 := by omega
    subst hdz0
    rw [List.mem_singleton]
    exact (minD_zero hdz).symm

/-- C4: graphShortestPath returns the empty sequence when the start is not
a key or the end is unreachable, the single-node path for equal endpoints,
and otherwise a path from start to end whose consecutive elements are
adjacent in the mapping and whose length is minimal among all such paths. -/
theorem claim_C4_shortest_path [Inhabited T] (graph : List (T × List T))
    (s e : T) :
    (alook graph s = none → graphShortestPath graph s e = []) ∧
    ((alook graph s).isSome → ¬ Reach (gnf graph) s e →
      graphShortestPath graph s e = []) ∧
    ((alook graph s).isSome → s = e → graphShortestPath graph s e = [s]) ∧
    ((alook graph s).isSome → Reach (gnf graph) s e →
      ∃ l, graphShortestPath graph s e = l ∧ l.head? = some s ∧
        l.getLast? = some e ∧ List.Chain' (adjRel (gnf graph)) l ∧
        ∀ m, m.head? = some s → m.getLast? = some e →
          List.Chain' (adjRel (gnf graph)) m → l.length ≤ m.length) := by
  have hspec : (alook graph s).isSome →
      (¬ Reach (gnf graph) s e →
        spLoop (gnf graph) s e (spFuel graph) [s] [s] [(s, s)] = []) ∧
      (∀ dt, MinD (gnf graph) s e dt →
        ∃ l, spLoop (gnf graph) s e (spFuel graph) [s] [s] [(s, s)] = l ∧
          l.head? = some s ∧ l.getLast? = some e ∧
          List.Chain' (adjRel (gnf graph)) l ∧ l.length = dt + 1) := by
    intro _
    refine spLoop_spec (gnf graph) s e (s :: gvalues graph)
      (gnf_mem_cons_values graph s) (spFuel graph) [s] [s] [(s, s)]
      (spInv_init (gnf graph) s e (s :: gvalues graph)
        (List.mem_cons_self s _)) ?_
    have key : ∀ n : Nat, (n + 1) * (n + 1 + 1) + 1 ≤ (n + 2) * (n + 2) := by
      intro n
      nlinarith
    unfold spFuel
    simp only [List.length_cons, List.length_singleton, Nat.add_sub_cancel]
    exact key (gvalues graph).length
  refine ⟨?_, ?_, ?_, ?_⟩
  · intro h
    unfold graphShortestPath
    rw [if_neg (by simp [h])]
  · intro hsome hnr
    unfold graphShortestPath
    rw [if_pos hsome]
    exact (hspec hsome).1 hnr
  · intro hsome hse
    subst hse
    unfold graphShortestPath
    rw [if_pos hsome]
    obtain ⟨l, hl, hh, hlast, hchain, hlen⟩ :=
      (hspec hsome).2 0 (minD_self (gnf graph) s)
    match l, hlen, hh, hl with
    | [x], _, hh, hl =>
      rw [List.head?_cons, Option.some_inj] at hh
      subst hh
      exact hl
  · intro hsome hr
    unfold graphShortestPath
    rw [if_pos hsome]
    obtain ⟨dt, hdt⟩ := minD_exists hr
    obtain ⟨l, hl, hh, hlast, hchain, hlen⟩ := (hspec hsome).2 dt hdt
    refine ⟨l, hl, hh, hlast, hchain, ?_⟩
    intro m hm1 hm2 hm3
    match m, hm1 with
    | x :: tl, hm1 =>
      have hpn := chain_to_pathN (x :: tl) s e (by
        rw [List.head?_cons] at hm1
        rw [List.head?_cons, hm1]) hm2 hm3
      have := hdt.2 _ hpn
      simp only [List.length_cons, Nat.add_sub_cancel] at this ⊢
      omega

/-- Closed witness for C4: the two-node mapping with one edge from 0 to 1. -/
theorem claim_C4_shortest_path_witness :
    (alook ([(0, [1]), (1, [])] : List (Nat × List Nat)) 0 = none →
      graphShortestPath ([(0, [1]), (1, [])] : List (Nat × List Nat)) 0 1 = []) ∧
    ((alook ([(0, [1]), (1, [])] : List (Nat × List Nat)) 0).isSome →
      ¬ Reach (gnf ([(0, [1]), (1, [])] : List (Nat × List Nat))) 0 1 →
      graphShortestPath ([(0, [1]), (1, [])] : List (Nat × List Nat)) 0 1 = []) ∧
    ((alook ([(0, [1]), (1, [])] : List (Nat × List Nat)) 0).isSome →
      (0 : Nat) = 1 →
      graphShortestPath ([(0, [1]), (1, [])] : List (Nat × List Nat)) 0 1 = [0]) ∧
    ((alook ([(0, [1]), (1, [])] : List (Nat × List Nat)) 0).isSome →
      Reach (gnf ([(0, [1]), (1, [])] : List (Nat × List Nat))) 0 1 →
      ∃ l, graphShortestPath ([(0, [1]), (1, [])] : List (Nat × List Nat)) 0 1 = l ∧
        l.head? = some 0 ∧ l.getLast? = some 1 ∧
        List.Chain' (adjRel (gnf ([(0, [1]), (1, [])] : List (Nat × List Nat)))) l ∧
        ∀ m, m.head? = some 0 → m.getLast? = some 1 →
          List.Chain' (adjRel (gnf ([(0, [1]), (1, [])] : List (Nat × List Nat)))) m →
          l.length ≤ m.length) :=
  claim_C4_shortest_path ([(0, [1]), (1, [])] : List (Nat × List Nat)) 0 1
